import Mathlib

/-!
# Verification of the trial-link quality/enrichment/bias pipeline

A shallow embedding of the core data transformations of the clinical-trials
pipeline (text normalisation, deduplication, validation, anomaly scoring,
bias reporting), together with theorems settling the spec claims.

Text is modelled as `List Char`; missing values (`None`/`NaN`) as `Option`;
tables as a list of column names plus rows of optional cells; Python's
arbitrary-precision / float arithmetic over `ℚ` (the quantities involved are
exact decimals, so `ℚ` is faithful where the claims look).
-/

namespace TrailLink

/-- Free text, as a list of characters. -/
abbrev Text := List Char

/-- An optional text value (`None` / `NaN` propagate through cleaning). -/
abbrev OText := Option Text

/-- Python whitespace for `str.split`, `str.strip` and `re`'s `\s`
(ASCII/Latin-1 range; the two agree on these characters). -/
def isSpaceChar (c : Char) : Bool :=
  c = ' ' ∨ c = '\t' ∨ c = '\n' ∨ c = '\r' ∨ c = '\x0b' ∨ c = '\x0c' ∨
  c = '\x1c' ∨ c = '\x1d' ∨ c = '\x1e' ∨ c = '\x1f' ∨ c = '\x85' ∨ c = '\xa0'

/-- Lower-casing a text, character by character (ASCII, as in `str.lower()`
for the inputs at hand). -/
def lowerText (t : Text) : Text := t.map Char.toLower

/-- Python's `needle in haystack` substring test. -/
def containsSub (hay needle : Text) : Bool :=
  match hay with
  | [] => needle.isEmpty
  | _ :: t => needle.isPrefixOf hay || containsSub t needle

/-- Does the (lowercased) conditions text contain any of the markers?
(a chain of Python `in` tests joined by `or`). -/
def anyMarker (c : Text) (markers : List Text) : Bool :=
  markers.any (containsSub c)

/-- The Type-1 markers of the first `if` arm. -/
def t1Markers : List Text :=
  ["type 1".data, "t1d".data, "t1dm".data, "juvenile".data, "iddm".data, "lada".data]

/-- The Type-2 markers. -/
def t2Markers : List Text :=
  ["type 2".data, "t2d".data, "t2dm".data, "niddm".data, "non-insulin dependent".data]

/-- The gestational markers. -/
def gestMarkers : List Text := ["gestational".data, "gdm".data]

/-- The pre-diabetes markers. -/
def preMarkers : List Text :=
  ["prediabetes".data, "pre-diabetes".data, "impaired glucose".data]

/-- The insipidus marker. -/
def insipidusMarkers : List Text := ["insipidus".data]

/-- The rare-diabetes markers. -/
def rareMarkers : List Text := ["neonatal".data, "monogenic".data, "mody".data]

/-- `src/src/pipelines/diabetes/ingest.py`, `classify_disease_type`:
classify the diabetes type from the `Conditions` field by an if/elif chain
of case-insensitive substring tests.  `none` models the `NaN`/`None` input
caught by `pd.isna`. -/
def classify_disease_type (conditions : OText) : String :=
  match conditions with
  | none => "Unknown"
  | some t =>
    let c := lowerText t
    if anyMarker c t1Markers then "Type 1 Diabetes"
    else if anyMarker c t2Markers then "Type 2 Diabetes"
    else if anyMarker c gestMarkers then "Gestational Diabetes"
    else if anyMarker c preMarkers then "Pre-Diabetes"
    else if anyMarker c insipidusMarkers then "Diabetes Insipidus"
    else if anyMarker c rareMarkers then "Rare Diabetes"
    else "Diabetes (General)"

/-- Modelled from the spec: the classifier as the spec words it — an ordered
rule list of (keyword set, label), first match wins, absent input →
"Unknown", no match → the generic bucket. -/
def classifySpecRules : List (List Text × String) :=
  [ (t1Markers, "Type 1 Diabetes"),
    (t2Markers, "Type 2 Diabetes"),
    (gestMarkers, "Gestational Diabetes"),
    (preMarkers, "Pre-Diabetes"),
    (insipidusMarkers, "Diabetes Insipidus"),
    (rareMarkers, "Rare Diabetes") ]

/-- Modelled from the spec: first-match-wins evaluation of the rule list. -/
def classifySpec (conditions : OText) : String :=
  match conditions with
  | none => "Unknown"
  | some t =>
    let c := lowerText t
    match classifySpecRules.find? (fun rule => anyMarker c rule.1) with
    | some rule => rule.2
    | none => "Diabetes (General)"

/-- The labels the classifier can produce. -/
def diseaseLabels : List String :=
  ["Unknown", "Type 1 Diabetes", "Type 2 Diabetes", "Gestational Diabetes",
   "Pre-Diabetes", "Diabetes Insipidus", "Rare Diabetes", "Diabetes (General)"]

/-- `src/src/pipelines/diabetes/bias.py` line 104: the overall bias level as
a function of the number of accumulated warnings. -/
def biasLevel (warningCount : Nat) : String :=
  if warningCount ≥ 2 then "HIGH"
  else if warningCount = 1 then "MEDIUM"
  else "LOW"

/-- Numeric rank of a bias level: LOW < MEDIUM < HIGH. -/
def biasLevelRank (level : String) : Nat :=
  if level = "HIGH" then 2 else if level = "MEDIUM" then 1 else 0

/-- The quality-stats fields read by `anomalies_found`
(`stats["total_rows"]`, `stats["issues"]["null_values"]`). -/
structure QStats where
  total_rows : Nat
  null_values : Nat
  deriving DecidableEq

/-- `src/src/pipelines/diabetes/quality.py`, `anomalies_found`: the quality
gate.  Returns `true` (continue) unless the null percentage exceeds 80. -/
def anomalies_found (stats : QStats) : Bool :=
  let null_pct : ℚ :=
    if stats.total_rows > 0 then
      (stats.null_values : ℚ) / (stats.total_rows : ℚ) * 100
    else 0
  if null_pct > 80 then false else true

/-! ## Tables

A pandas `DataFrame` is modelled as a list of column names plus rows of
optional cells.  A cell is `none` for `NaN`/missing; a present value is
either text or a (rational) number — numeric strings that pandas would
parse are represented as `Val.num` directly. -/

/-- A cell value: text or a number. -/
inductive Val where
  | str (s : Text)
  | num (q : ℚ)
  deriving DecidableEq

/-- An optional cell (`none` = `NaN`). -/
abbrev Cell := Option Val

/-- A data frame: column names plus rows of cells.  Well-formed tables are
rectangular (every row as long as `cols`); theorems assume this where the
pandas code relies on it. -/
structure Table where
  cols : List String
  rows : List (List Cell)
  deriving DecidableEq

/-- Cell of row `r` at column position `i` (missing position reads as NaN). -/
def cellAt (r : List Cell) (i : Nat) : Cell := r.getD i none

/-- The cells of the column named `c`. -/
def colCells (df : Table) (c : String) : List Cell :=
  df.rows.map (fun r => cellAt r (df.cols.indexOf c))

/-- Number of rows (`len(df)`). -/
def nRows (df : Table) : Nat := df.rows.length

/-- Number of missing values in a list of cells (`.isnull().sum()`). -/
def nullCount (cells : List Cell) : Nat := cells.countP (·.isNone)

/-- `astype(str)` of one cell: `NaN` renders as `"nan"`, numbers via their
decimal rendering (abstracted through `toString`). -/
def cellStr (c : Cell) : Text :=
  match c with
  | none => "nan".data
  | some (.str s) => s
  | some (.num q) => (toString q).data

/-- The regex `^NCT\d{8}$`. -/
def nctFormat (s : Text) : Bool :=
  match s with
  | 'N' :: 'C' :: 'T' :: ds => ds.length = 8 && ds.all (·.isDigit)
  | _ => false

/-! ## Validation (`src/src/pipelines/diabetes/validate.py`)

The error strings are modelled as an inductive type carrying the counts
that the source interpolates into the message. -/

/-- One accumulated validation error. -/
inductive VErr where
  | missingColumns (cols : List String)
  | emptyDataset
  | fewRows (n : Nat)
  | invalidNct (count : Nat)
  | dtypeNulls (count : Nat)
  | dtypeUnknown (count : Nat)
  | dsourceNulls (count : Nat)
  | criticalNull (col : String)
  deriving DecidableEq

/-- `REQUIRED_COLUMNS` of `validate.py`. -/
def REQUIRED_COLUMNS : List String :=
  ["NCT Number", "Study Title", "Recruitment Status", "Conditions",
   "Brief Summary", "Interventions", "Sponsor", "Enrollment", "Age", "Sex",
   "Locations", "disease_type", "data_source"]

/-- `validate_schema`: all required columns present. -/
def validate_schema (df : Table) : List VErr :=
  let missing := REQUIRED_COLUMNS.filter (fun c => ¬ df.cols.contains c)
  if missing = [] then [] else [.missingColumns missing]

/-- `validate_not_empty`: the table has rows, and at least 10 of them. -/
def validate_not_empty (df : Table) : List VErr :=
  if nRows df = 0 then [.emptyDataset]
  else if nRows df < 10 then [.fewRows (nRows df)] else []

/-- Count of rows whose `NCT Number` does not match `^NCT\d{8}$`
(after `astype(str)`, so a missing cell reads `"nan"` and counts invalid). -/
def nctInvalidCount (df : Table) : Nat :=
  (colCells df "NCT Number").countP (fun c => ¬ nctFormat (cellStr c))

/-- `validate_nct_format`: error only when the invalid fraction exceeds 10%;
at or below the threshold the condition only logs. -/
def validate_nct_format (df : Table) : List VErr :=
  if ¬ df.cols.contains "NCT Number" then []
  else
    let count := nctInvalidCount df
    if count > 0 ∧ (count : ℚ) / (nRows df : ℚ) * 100 > 10 then
      [.invalidNct count]
    else []

/-- `validate_new_columns`: the enrichment columns must be populated. -/
def validate_new_columns (df : Table) : List VErr :=
  (if df.cols.contains "disease_type" then
    let nulls := nullCount (colCells df "disease_type")
    let unknowns :=
      (colCells df "disease_type").count (some (.str "Unknown".data))
    (if nulls > 0 then [VErr.dtypeNulls nulls] else []) ++
    (if (unknowns : ℚ) > (nRows df : ℚ) * (1/2) then
      [VErr.dtypeUnknown unknowns] else [])
   else []) ++
  (if df.cols.contains "data_source" then
    let nulls := nullCount (colCells df "data_source")
    if nulls > 0 then [VErr.dsourceNulls nulls] else []
   else [])

/-- `validate_critical_nulls`: a critical column with >80% missing.  (With
zero rows the numpy quotient is NaN, and `NaN > 80` is false; the guard
below reproduces that decision.) -/
def validate_critical_nulls (df : Table) : List VErr :=
  (["NCT Number", "Study Title", "Conditions"].filter (fun c =>
      df.cols.contains c ∧ 0 < nRows df ∧
      (nullCount (colCells df c) : ℚ) / (nRows df : ℚ) * 100 > 80)).map
    VErr.criticalNull

/-- All accumulated validation errors, in check order (`run_validation`). -/
def validationErrors (df : Table) : List VErr :=
  validate_not_empty df ++ validate_schema df ++ validate_nct_format df ++
  validate_new_columns df ++ validate_critical_nulls df

/-- `run_validation` on an in-memory table (the unreadable-file early return
is I/O, outside this model): passes iff no check accumulated an error. -/
def run_validation (df : Table) : Bool := validationErrors df = []

/-! ## Anomaly detection (`src/dags/diabetes_pipeline_dag.py`, `task_anomaly`) -/

/-- Insert into a sorted list, before the first element `y` with `le x y`
(the stability discipline of a stable sort). -/
def insertSorted (le : α → α → Bool) (x : α) : List α → List α
  | [] => [x]
  | y :: ys => if le x y then x :: y :: ys else y :: insertSorted le x ys

/-- Stable insertion sort (models the stable sorts used by pandas). -/
def sortBy (le : α → α → Bool) : List α → List α
  | [] => []
  | x :: xs => insertSorted le x (sortBy le xs)

/-- Pandas `Series.quantile(p)` with the default linear interpolation, over
an ascending-sorted nonempty list. -/
def quantileSorted (vs : List ℚ) (p : ℚ) : ℚ :=
  let h : ℚ := p * ((vs.length : ℚ) - 1)
  let lo : Nat := (⌊h⌋).toNat
  let a := vs.getD lo 0
  let b := vs.getD (lo + 1) a
  a + (h - (lo : ℚ)) * (b - a)

/-- The numeric `Enrollment` values
(`pd.to_numeric(..., errors="coerce").dropna()`): numeric cells survive,
text and missing cells are coerced to NaN and dropped. -/
def enrollmentVals (df : Table) : List ℚ :=
  (colCells df "Enrollment").filterMap (fun c =>
    match c with
    | some (.num q) => some q
    | _ => none)

/-- Number of IQR outliers among the enrollment values. -/
def outlierCount (df : Table) : Nat :=
  let vs := enrollmentVals df
  let s := sortBy (fun a b : ℚ => a ≤ b) vs
  let q1 := quantileSorted s (1/4)
  let q3 := quantileSorted s (3/4)
  let iqr := q3 - q1
  vs.countP (fun v => v < q1 - (3/2) * iqr ∨ v > q3 + (3/2) * iqr)

/-- Columns flagged as `high_missing` (missing fraction strictly above 50%;
with zero rows the quotient is NaN and nothing is flagged). -/
def highMissingCols (df : Table) : List String :=
  df.cols.filter (fun c =>
    0 < nRows df ∧
    (nullCount (colCells df c) : ℚ) / (nRows df : ℚ) * 100 > 50)

/-- Number of `outliers` entries (a single entry when outliers exist). -/
def outlierEntries (df : Table) : Nat :=
  if df.cols.contains "Enrollment" then
    if enrollmentVals df ≠ [] ∧ 0 < outlierCount df then 1 else 0
  else 0

/-- `df["NCT Number"].duplicated().sum()`: rows minus distinct key values
(NaN keys compare equal to each other, as in pandas). -/
def dupNctCount (df : Table) : Nat :=
  nRows df - ((colCells df "NCT Number").dedup).length

/-- Number of `duplicates` entries (zero or one). -/
def dupEntries (df : Table) : Nat :=
  if df.cols.contains "NCT Number" then
    if 0 < dupNctCount df then 1 else 0
  else 0

/-- Number of `invalid_formats` entries (zero or one). -/
def invalidFmtEntries (df : Table) : Nat :=
  if df.cols.contains "NCT Number" then
    if 0 < nctInvalidCount df then 1 else 0
  else 0

/-- `total_anomalies`: the number of recorded anomaly entries across the
four categories. -/
def totalAnomalies (df : Table) : Nat :=
  (highMissingCols df).length + outlierEntries df + dupEntries df +
  invalidFmtEntries df

/-- Rounding to two decimals (`round(x, 2)`; Python rounds ties to even,
Mathlib's `round` rounds ties up — the claims never sit on a tie). -/
def round2 (q : ℚ) : ℚ := ((round (q * 100) : ℤ) : ℚ) / 100

/-- The `data_quality_score` of `task_anomaly`:
`round(100 - total/rows*100, 2)` guarded to `0` on an empty table. -/
def dataQualityScore (df : Table) : ℚ :=
  if 0 < nRows df then
    round2 (100 - (totalAnomalies df : ℚ) / (nRows df : ℚ) * 100)
  else 0

/-! ## Generic bias slicer (`src/src/pipelines/breast_cancer/bias.py`) -/

/-- Distinct elements in first-seen order (the index of a pandas
`value_counts`; the source orders by descending count, which no claim
observes, so first-seen order stands in for it). -/
def distincts [DecidableEq α] (l : List α) : List α :=
  l.foldl (fun acc t => if t ∈ acc then acc else acc ++ [t]) []

/-- `value_counts`: each distinct element with its number of occurrences. -/
def valueCounts [DecidableEq α] (l : List α) : List (α × Nat) :=
  (distincts l).map (fun t => (t, l.count t))

/-- `fillna("MISSING").astype(str)` of one cell. -/
def fillnaMissingStr (c : Cell) : Text :=
  match c with
  | none => "MISSING".data
  | some v => cellStr (some v)

/-- `_value_counts_with_pct`: counts and fractions (over the row count) of
the MISSING-bucketed string values of a column. -/
def valueCountsWithPct (cells : List Cell) : List (Text × Nat) × List (Text × ℚ) :=
  let s := cells.map fillnaMissingStr
  (valueCounts s, (valueCounts s).map (fun p => (p.1, (p.2 : ℚ) / (s.length : ℚ))))

/-- The candidate "important" columns of the breast-cancer bias slicer. -/
def bcCandidateCols : List String :=
  ["NCTId", "Conditions", "BriefTitle", "OverallStatus", "Phase", "Sex",
   "MinimumAge", "MaximumAge", "EnrollmentCount", "StudyType"]

/-- `DEFAULT_SLICE_COLUMNS` of the breast-cancer bias slicer. -/
def DEFAULT_SLICE_COLUMNS : List String := ["Sex", "Phase", "StudyType", "OverallStatus"]

/-- `_missingness_by_slice`: for each present sample column, the missing
fraction of that column within each slice group. -/
def missingnessBySlice (df : Table) (sliceCol : String) (sampleCols : List String) :
    List (String × List (Text × ℚ)) :=
  let s := (colCells df sliceCol).map fillnaMissingStr
  (sampleCols.filter (fun c => df.cols.contains c)).map (fun c =>
    let paired := s.zip (colCells df c)
    (c, (distincts s).map (fun g =>
      let grp := paired.filter (fun p => p.1 = g)
      (g, (grp.countP (fun p => p.2.isNone) : ℚ) / (grp.length : ℚ)))))

/-- One entry of the breast-cancer bias report's `slices` mapping. -/
inductive SliceEntry where
  | columnNotFound
  | computed (counts : List (Text × Nat)) (pct : List (Text × ℚ))
      (missingness : List (String × List (Text × ℚ)))
  deriving DecidableEq

/-- The breast-cancer `generate_bias_report` (the fields the claims read). -/
structure BCBiasReport where
  dataset_rows : Nat
  slice_columns_requested : List String
  slice_columns_found : List String
  slices : List (String × SliceEntry)
  deriving DecidableEq

/-- The `slices` entry for one requested column: the `column_not_found`
marker when the column is absent, else the computed slice. -/
def sliceEntryFor (df : Table) (col : String) : SliceEntry :=
  if df.cols.contains col then
    SliceEntry.computed (valueCountsWithPct (colCells df col)).1
      (valueCountsWithPct (colCells df col)).2
      (missingnessBySlice df col (bcCandidateCols.filter (fun c => df.cols.contains c)))
  else SliceEntry.columnNotFound

/-- `src/src/pipelines/breast_cancer/bias.py`, `generate_bias_report`:
per requested slice column, either a `column_not_found` marker or the
representation + missingness computation. -/
def bc_generate_bias_report (df : Table) (sliceColumns : List String) : BCBiasReport :=
  { dataset_rows := nRows df
    slice_columns_requested := sliceColumns
    slice_columns_found := sliceColumns.filter (fun c => df.cols.contains c)
    slices := sliceColumns.map (fun col => (col, sliceEntryFor df col)) }

/-! ## Diabetes bias detector (`src/src/pipelines/diabetes/bias.py`) -/

/-- One warning of the diabetes bias report, with the figures the source
interpolates into the message. -/
inductive BWarn where
  | lowPediatric (count : Nat)
  | sexImbalance (male female : Nat)
  | geoBias (pct : ℚ)
  deriving DecidableEq

/-- Case-insensitive "does the string rendering of this cell contain any of
these needles" (`astype(str).str.contains(pat, case=False)`). -/
def cellContainsAny (c : Cell) (needles : List Text) : Bool :=
  needles.any (fun n => containsSub (lowerText (cellStr c)) n)

/-- Rows of column `col` whose string rendering matches any needle,
case-insensitively. -/
def countContains (df : Table) (col : String) (needles : List Text) : Nat :=
  (colCells df col).countP (fun c => cellContainsAny c needles)

/-- `value_counts().to_dict()` over the raw (non-missing) values of a
column — `value_counts` drops NaN by default. -/
def rawValueCounts (df : Table) (col : String) : List (Val × Nat) :=
  valueCounts ((colCells df col).filterMap id)

/-- The male count: keys containing "male" but not "fe", summed. -/
def maleCount (df : Table) : Nat :=
  ((rawValueCounts df "Sex").filter (fun p =>
    containsSub (lowerText (cellStr (some p.1))) "male".data ∧
    ¬ containsSub (lowerText (cellStr (some p.1))) "fe".data)).foldl
    (fun a p => a + p.2) 0

/-- The female count: keys containing "female", summed. -/
def femaleCount (df : Table) : Nat :=
  ((rawValueCounts df "Sex").filter (fun p =>
    containsSub (lowerText (cellStr (some p.1))) "female".data)).foldl
    (fun a p => a + p.2) 0

/-- The four age-bucket counts of the diabetes bias report. -/
def ageSlices (df : Table) : List (String × Nat) :=
  [("pediatric", countContains df "Age" ["child".data, "pediatric".data]),
   ("adult", countContains df "Age" ["adult".data, "18".data]),
   ("elderly", countContains df "Age" ["65".data, "elder".data, "senior".data, "older".data]),
   ("all_ages", countContains df "Age" ["all".data])]

/-- US-trial count for the geography slice. -/
def usTrials (df : Table) : Nat :=
  countContains df "Locations" ["united states".data]

/-- The diabetes bias report (the fields the claims read). -/
structure DBBiasReport where
  total_trials : Nat
  age : Option (List (String × Nat))
  sex : Option (List (Val × Nat))
  disease_type : Option (List (Val × Nat))
  geography : Option (Nat × Nat × ℚ)
  warnings : List BWarn
  overall_bias_score : Nat
  bias_level : String

/-- The age-section warning (pediatric representation below 5%). -/
def ageWarnings (df : Table) : List BWarn :=
  if df.cols.contains "Age" then
    let ped := countContains df "Age" ["child".data, "pediatric".data]
    if (ped : ℚ) < (nRows df : ℚ) * (5/100) then [.lowPediatric ped] else []
  else []

/-- The sex-section warning (ratio outside [0.5, 2], both counts positive). -/
def sexWarnings (df : Table) : List BWarn :=
  if df.cols.contains "Sex" then
    let male := maleCount df
    let female := femaleCount df
    if male > 0 ∧ female > 0 then
      let ratio : ℚ := (male : ℚ) / (female : ℚ)
      if ratio > 2 ∨ ratio < 1/2 then [.sexImbalance male female] else []
    else []
  else []

/-- The geography-section warning (more than 80% US trials). -/
def geoWarnings (df : Table) : List BWarn :=
  if df.cols.contains "Locations" then
    let us := usTrials df
    let usPct : ℚ := if nRows df > 0 then (us : ℚ) / (nRows df : ℚ) * 100 else 0
    if usPct > 80 then [.geoBias usPct] else []
  else []

/-- All warnings, in source (append) order. -/
def dbWarnings (df : Table) : List BWarn :=
  ageWarnings df ++ sexWarnings df ++ geoWarnings df

/-- `src/src/pipelines/diabetes/bias.py`, `generate_bias_report`: the four
fixed slices, their threshold warnings in source order, and the overall
level from the warning count. -/
def db_generate_bias_report (df : Table) : DBBiasReport :=
  let total := nRows df
  { total_trials := total
    age := if df.cols.contains "Age" then some (ageSlices df) else none
    sex := if df.cols.contains "Sex" then some (rawValueCounts df "Sex") else none
    disease_type :=
      if df.cols.contains "disease_type" then some (rawValueCounts df "disease_type")
      else none
    geography :=
      if df.cols.contains "Locations" then
        let us := usTrials df
        some (us, total - us,
          round2 (if total > 0 then (us : ℚ) / (total : ℚ) * 100 else 0))
      else none
    warnings := dbWarnings df
    overall_bias_score := (dbWarnings df).length
    bias_level := biasLevel (dbWarnings df).length }

/-! ## Deduplication (`src/src/pipelines/diabetes/quality.py`, `remove_duplicates`) -/

/-- `df.count(axis=1)`: number of non-missing cells of a row. -/
def rowScore (r : List Cell) : Nat := r.countP (·.isSome)

/-- Column assignment `df[name] = vals`: overwrite in place when the column
exists, else append it on the right. -/
def setCol (df : Table) (name : String) (vals : List Cell) : Table :=
  if df.cols.contains name then
    { cols := df.cols
      rows := (df.rows.zip vals).map (fun p => p.1.set (df.cols.indexOf name) p.2) }
  else
    { cols := df.cols ++ [name]
      rows := (df.rows.zip vals).map (fun p => p.1 ++ [p.2]) }

/-- Lexicographic order on text by character code. -/
def textLT : Text → Text → Bool
  | [], [] => false
  | [], _ :: _ => true
  | _ :: _, [] => false
  | c :: cs, d :: ds => c < d ∨ (c = d ∧ textLT cs ds)

/-- A strict order on values (pandas sorts homogeneous columns; the
numbers-before-text case is an arbitrary completion never hit by a
homogeneous key column). -/
def valLT : Val → Val → Bool
  | .num a, .num b => a < b
  | .str a, .str b => textLT a b
  | .num _, .str _ => true
  | .str _, .num _ => false

/-- Key order for `sort_values(ascending=True)`: NaN sorts last. -/
def cellKeyLT : Cell → Cell → Bool
  | some a, some b => valLT a b
  | some _, none => true
  | none, _ => false

/-- The `_score` value of a row (the column always holds a number). -/
def scoreAt (sIdx : Nat) (r : List Cell) : ℚ :=
  match cellAt r sIdx with
  | some (.num q) => q
  | _ => 0

/-- `sort_values([key, "_score"], ascending=[True, False])` as a stable
total preorder: key ascending, then score descending. -/
def rowLE (kIdx sIdx : Nat) (a b : List Cell) : Bool :=
  cellKeyLT (cellAt a kIdx) (cellAt b kIdx) ∨
  (cellAt a kIdx = cellAt b kIdx ∧ scoreAt sIdx b ≤ scoreAt sIdx a)

/-- `drop_duplicates(subset=[key], keep="first")`: keep each key's first
occurrence (NaN keys compare equal, as in pandas). -/
def dedupByKey (kIdx : Nat) (seen : List Cell) : List (List Cell) → List (List Cell)
  | [] => []
  | r :: rs =>
    if cellAt r kIdx ∈ seen then dedupByKey kIdx seen rs
    else r :: dedupByKey kIdx (cellAt r kIdx :: seen) rs

/-- `remove_duplicates`, with the in-place mutation of the argument made
explicit: the first component is the caller's data frame after the call
(it received the `_score` column), the second is the returned table. -/
def remove_duplicates_full (df : Table) (column : String) : Table × Table :=
  let df1 := setCol df "_score" (df.rows.map (fun r => some (Val.num (rowScore r))))
  let kIdx := df1.cols.indexOf column
  let sIdx := df1.cols.indexOf "_score"
  let sorted := sortBy (rowLE kIdx sIdx) df1.rows
  let dd := dedupByKey kIdx [] sorted
  (df1, { cols := df1.cols.eraseIdx sIdx, rows := dd.map (fun r => r.eraseIdx sIdx) })

/-- The value returned to the caller of `remove_duplicates`. -/
def remove_duplicates (df : Table) (column : String) : Table :=
  (remove_duplicates_full df column).2

/-- The row the dedup policy is specified to retain for a key group: the
first row attaining the maximum non-missing-field count. -/
def chooseBest : List (List Cell) → Option (List Cell)
  | [] => none
  | r :: rs =>
    match chooseBest rs with
    | none => some r
    | some b => if rowScore b > rowScore r then some b else some r


/-- Auxiliary: the first row attaining the maximum of a rational score
(proof-side mirror of `chooseBest`). -/
def chooseBestQ (sc : List Cell → ℚ) : List (List Cell) → Option (List Cell)
  | [] => none
  | r :: rs =>
    match chooseBestQ sc rs with
    | none => some r
    | some b => if sc r < sc b then some b else some r

/-! ## Text cleaning (`src/src/pipelines/diabetes/quality.py`) -/

/-- Python `str.split()`: maximal runs of non-whitespace characters. -/
def wordsOf : Text → List Text
  | [] => []
  | c :: cs =>
    if isSpaceChar c then wordsOf cs
    else (c :: cs.takeWhile (fun d => ¬ isSpaceChar d)) ::
      wordsOf (cs.dropWhile (fun d => ¬ isSpaceChar d))
  termination_by t => t.length
  decreasing_by
    · simp only [List.length_cons]; omega
    · simp only [List.length_cons]
      exact Nat.lt_succ_of_le (List.dropWhile_sublist _).length_le

/-- `' '.join(words)`: the words separated by single spaces. -/
def joinWords : List Text → Text
  | [] => []
  | [w] => w
  | w :: ws => w ++ ' ' :: joinWords ws

/-- `clean_whitespace`: strip, collapse whitespace runs to single spaces,
and turn an empty result into `None`.  `strip` + `re.sub(r'\s+', ' ')`
(+ the no-op tab replace) is exactly split-and-rejoin. -/
def clean_whitespace (o : OText) : OText :=
  match o with
  | none => none
  | some t =>
    let ws := wordsOf t
    if ws.isEmpty then none else some (joinWords ws)

/-- Python `str.replace(pat, rep)` with nonempty `pat = p0 :: pr`:
leftmost, non-overlapping. -/
def replAll (p0 : Char) (pr rep : Text) : Text → Text
  | [] => []
  | c :: cs =>
    if c = p0 ∧ pr.isPrefixOf cs then rep ++ replAll p0 pr rep (cs.drop pr.length)
    else c :: replAll p0 pr rep cs
  termination_by t => t.length
  decreasing_by
    · simp only [List.length_cons, List.length_drop]; omega
    · simp only [List.length_cons]; omega

/-- One `text.replace(pat, rep)` step. -/
def replacePair (t : Text) (pat rep : Text) : Text :=
  match pat with
  | [] => t
  | p0 :: pr => replAll p0 pr rep t

/-- The `html_entities` mapping, in source (insertion) order. -/
def htmlEntities : List (Text × Text) :=
  [("&amp;".data, "&".data), ("&lt;".data, "<".data), ("&gt;".data, ">".data),
   ("&#39;".data, "'".data), ("&quot;".data, "\"".data),
   ("&nbsp;".data, " ".data), ("&apos;".data, "'".data)]

/-- `remove_html_entities`: the sequence of replaces. -/
def remove_html_entities (t : Text) : Text :=
  htmlEntities.foldl (fun acc pr => replacePair acc pr.1 pr.2) t

/-- The characters stripped by `remove_invalid_characters`
(NUL, U+FFFD, and the C0/DEL ranges of the regex). -/
def isBadChar (c : Char) : Bool :=
  c = '\x00' ∨ c = '�' ∨ c ≤ '\x08' ∨ ('\x0b' ≤ c ∧ c ≤ '\x0c') ∨
  ('\x0e' ≤ c ∧ c ≤ '\x1f') ∨ c = '\x7f'

/-- `remove_invalid_characters`. -/
def remove_invalid_characters (t : Text) : Text :=
  t.filter (fun c => ¬ isBadChar c)

/-- A regex token of the terminology patterns: a (lowercase) literal
character, or a whitespace run of at least `minRun` characters
(`\s*` = `wsm 0`, `\s+` = `wsm 1`). -/
inductive Tok where
  | lit (c : Char)
  | wsm (minRun : Nat)
  deriving DecidableEq

/-- A terminology pattern: its first literal plus the remaining tokens
(every source pattern starts with a literal); `\b` is implicit at both
ends. -/
abbrev Pat := Char × List Tok

/-- Literal tokens of a word. -/
def litToks (s : Text) : List Tok := s.map Tok.lit

/-- Match the token list against a text, case-insensitively, returning the
number of consumed characters.  Whitespace runs are consumed maximally,
which agrees with greedy backtracking here because in every source pattern
the token after a whitespace run is a non-space literal. -/
def matchToks : List Tok → Text → Option Nat
  | [], _ => some 0
  | .lit _ :: _, [] => none
  | .lit c :: ps, d :: t => if d.toLower = c then (matchToks ps t).map (· + 1) else none
  | .wsm m :: ps, t =>
    let k := (t.takeWhile isSpaceChar).length
    if m ≤ k then (matchToks ps (t.drop k)).map (· + k) else none

/-- Match a pattern at the head of `c :: cs`; `some k` means the match
consumed `k + 1` characters. -/
def matchPat (p : Pat) (c : Char) (cs : Text) : Option Nat :=
  if c.toLower = p.1 then matchToks p.2 cs else none

/-- Python `\w` (ASCII view, all that the inputs exercise). -/
def isWordChar (c : Char) : Bool := c.isAlphanum ∨ c = '_'

/-- Is the position after the match a word boundary? -/
def endBoundaryOK : Text → Bool
  | [] => true
  | d :: _ => ¬ isWordChar d

/-- Is the position after `prev` a word boundary on the left? -/
def prevBoundaryOK : Option Char → Bool
  | none => true
  | some d => ¬ isWordChar d

/-- `re.sub(pattern, rep, text, flags=IGNORECASE)` for a `\b...\b` pattern:
scan left to right; at each position with a left word boundary try the
pattern; on a match with a right word boundary emit the replacement and
resume after the match (boundaries are judged on the original text, as
`re.sub` does). -/
def subPat (p : Pat) (rep : Text) (prev : Option Char) : Text → Text
  | [] => []
  | c :: cs =>
    match matchPat p c cs with
    | some k =>
      if prevBoundaryOK prev ∧ endBoundaryOK (cs.drop k) then
        rep ++ subPat p rep ((c :: cs.take k).getLast?) (cs.drop k)
      else c :: subPat p rep (some c) cs
    | none => c :: subPat p rep (some c) cs
  termination_by t => t.length
  decreasing_by
    all_goals simp only [List.length_cons, List.length_drop]; omega

/-- The `terminology_map`, in source (insertion) order. -/
def terminologyMap : List (Pat × Text) :=
  [ (('t', litToks "1d".data), "Type 1 Diabetes Mellitus".data),
    (('t', litToks "1dm".data), "Type 1 Diabetes Mellitus".data),
    (('t', litToks "ype".data ++ [.wsm 0, .lit 'i', .wsm 1] ++ litToks "diabetes".data),
      "Type 1 Diabetes Mellitus".data),
    (('i', litToks "ddm".data), "Type 1 Diabetes Mellitus".data),
    (('j', litToks "uvenile".data ++ [.wsm 1] ++ litToks "diabetes".data),
      "Type 1 Diabetes Mellitus".data),
    (('t', litToks "2d".data), "Type 2 Diabetes Mellitus".data),
    (('t', litToks "2dm".data), "Type 2 Diabetes Mellitus".data),
    (('t', litToks "ype".data ++ [.wsm 0, .lit 'i', .lit 'i', .wsm 1] ++
        litToks "diabetes".data), "Type 2 Diabetes Mellitus".data),
    (('n', litToks "iddm".data), "Type 2 Diabetes Mellitus".data),
    (('g', litToks "dm".data), "Gestational Diabetes Mellitus".data) ]

/-- `normalize_medical_terminology`: the ten substitutions in order. -/
def normalize_medical_terminology (t : Text) : Text :=
  terminologyMap.foldl (fun acc pr => subPat pr.1 pr.2 none acc) t

/-- The adjacent-duplicate filter: drop a word equal (case-insensitively)
to the last kept word. -/
def dedupAdjGo (last : Text) : List Text → List Text
  | [] => []
  | w :: ws =>
    if lowerText w = lowerText last then dedupAdjGo last ws
    else w :: dedupAdjGo w ws

/-- `remove_duplicate_words`: with at most one word the text is returned
untouched; otherwise adjacent case-insensitive duplicates collapse and the
words are rejoined. -/
def remove_duplicate_words (t : Text) : Text :=
  match wordsOf t with
  | [] => t
  | [_] => t
  | w :: ws => joinWords (w :: dedupAdjGo w ws)

/-- `apply_all_text_cleaning`: the full pipeline in source order. -/
def apply_all_text_cleaning (o : OText) : OText :=
  match o with
  | none => none
  | some t =>
    clean_whitespace
      (((((clean_whitespace (some t)).map remove_html_entities).map
        remove_invalid_characters).map
        normalize_medical_terminology).map remove_duplicate_words)

/-! ## Concrete inputs used by witnesses and counterexamples -/

/-- A text cell. -/
def strCell (s : String) : Cell := some (Val.str s.data)

/-- One row, both columns missing: two `high_missing` entries. -/
def cexAnomalyTable : Table := ⟨["A", "B"], [[none, none]]⟩

/-- One clean row: no anomaly entries. -/
def witAnomalyTable : Table := ⟨["A"], [[strCell "x"]]⟩

/-- 30 male and 5 female trials (the spec's sex-imbalance scenario). -/
def witSexTable : Table :=
  ⟨["Sex"], List.replicate 30 [strCell "MALE"] ++ List.replicate 5 [strCell "FEMALE"]⟩

/-- A one-column table for the slice-marker scenario. -/
def witSliceTable : Table := ⟨["Sex"], [[strCell "F"]]⟩

/-- A table that already owns a `_score` column. -/
def cexScoreTable : Table :=
  ⟨["NCT Number", "_score"], [[strCell "NCT00000001", some (Val.num 7)]]⟩

/-- Two rows sharing a key (the second more complete) plus a lone key. -/
def witDedupTable : Table :=
  ⟨["NCT Number", "X", "Y"],
   [[strCell "NCT00000001", none, none],
    [strCell "NCT00000001", strCell "a", none],
    [strCell "NCT00000002", strCell "b", strCell "c"]]⟩

/-- The double-encoded entity that defeats idempotence. -/
def cexIdemInput : OText := some "&amp;amp;".data

/-- A benign input whose cleaned output is a fixed point of both
entity decoding and terminology substitution. -/
def witIdemInput : OText := some "hello world".data

/-! # Theorems -/

/-! ## Helper lemmas -/

/-- `round` on ℚ is monotone. -/
theorem round_mono' (a b : ℚ) (hab : a ≤ b) : round a ≤ round b := by
  rw [round_eq, round_eq]
  exact Int.floor_le_floor (by linarith)

/-- Looking up a key of a `(key, f key)` association list built by `map`. -/
theorem lookup_map_pair {β : Type} (f : String → β) (cols : List String) (c : String)
    (hc : c ∈ cols) :
    (cols.map (fun col => (col, f col))).lookup c = some (f c) := by
  induction cols with
  | nil => cases hc
  | cons d rest ih =>
    by_cases h : c = d
    · subst h; simp [List.lookup]
    · have hbeq : (c == d) = false := beq_eq_false_iff_ne.mpr h
      rcases List.mem_cons.mp hc with h' | h'
      · exact absurd h' h
      · simp only [List.map_cons, List.lookup, hbeq]
        exact ih h'

/-- A nonzero warning count puts the bias level at MEDIUM or above. -/
theorem rank_pos_of_warn (n : Nat) (h : 1 ≤ n) : 1 ≤ biasLevelRank (biasLevel n) := by
  simp only [biasLevel, biasLevelRank, ge_iff_le]
  split_ifs <;> simp_all <;> omega

/-- The invalid-identifier count never exceeds the row count. -/
theorem nct_count_le (df : Table) : nctInvalidCount df ≤ nRows df := by
  unfold nctInvalidCount nRows colCells
  calc (df.rows.map (fun r => cellAt r (df.cols.indexOf "NCT Number"))).countP _
      ≤ (df.rows.map (fun r => cellAt r (df.cols.indexOf "NCT Number"))).length :=
        List.countP_le_length _
    _ = df.rows.length := List.length_map _ _

/-- The clean one-row witness table records no anomaly entries. -/
theorem totalAnomalies_wit_eval : totalAnomalies witAnomalyTable = 0 := by
  have hhm : highMissingCols witAnomalyTable = [] := by
    simp [highMissingCols, witAnomalyTable, nRows, nullCount, colCells, cellAt,
      List.filter, List.countP, List.countP.go, strCell]
    norm_num
  unfold totalAnomalies
  rw [hhm]
  simp [outlierEntries, dupEntries, invalidFmtEntries, witAnomalyTable]

/-! ## C4 — the diabetes quality gate -/

/-- **C4.** The quality gate returns `false` (halt) iff the recorded null
fraction over `total_rows` exceeds 80%, and `true` (continue) otherwise. -/
theorem anomalies_found_gate (s : QStats) (h : 0 < s.total_rows) :
    (anomalies_found s = false ↔
      4/5 < (s.null_values : ℚ) / (s.total_rows : ℚ)) ∧
    (anomalies_found s = true ↔
      (s.null_values : ℚ) / (s.total_rows : ℚ) ≤ 4/5) := by
  have hiff : ((80:ℚ) < (s.null_values : ℚ) / (s.total_rows : ℚ) * 100) ↔
      4/5 < (s.null_values : ℚ) / (s.total_rows : ℚ) := by
    constructor <;> intro hh <;> nlinarith
  unfold anomalies_found
  rw [if_pos h]
  by_cases hc : (80:ℚ) < (s.null_values : ℚ) / (s.total_rows : ℚ) * 100
  · rw [if_pos hc]
    simp [hiff.mp hc]
  · rw [if_neg hc]
    rw [hiff] at hc
    simp [hc]
    push_neg at hc
    exact hc

/-- **C4 witness.** 100 rows with 85 nulls halt the pipeline; with 5 nulls it
continues. -/
theorem anomalies_found_gate_witness :
    anomalies_found ⟨100, 85⟩ = false ∧ anomalies_found ⟨100, 5⟩ = true :=
  ⟨(anomalies_found_gate ⟨100, 85⟩ (by norm_num)).1.mpr (by norm_num),
   (anomalies_found_gate ⟨100, 5⟩ (by norm_num)).2.mpr (by norm_num)⟩

/-! ## C5 — totality and rule order of the disease classifier -/

/-- **C5.** `classify_disease_type` is total: it coincides with the
first-match-wins evaluation of the ordered rule list, always lands in the
fixed label set, maps absent input to "Unknown", and maps any text that no
rule matches to "Diabetes (General)". -/
theorem classify_disease_type_total (x : OText) :
    classify_disease_type x = classifySpec x ∧
    classify_disease_type x ∈ diseaseLabels ∧
    classify_disease_type none = "Unknown" ∧
    (∀ t : Text, classifySpecRules.all
        (fun rule => ¬ anyMarker (lowerText t) rule.1) →
      classify_disease_type (some t) = "Diabetes (General)") := by
  refine ⟨?_, ?_, rfl, ?_⟩
  · cases x with
    | none => rfl
    | some t =>
      simp only [classify_disease_type, classifySpec, classifySpecRules, List.find?]
      split_ifs <;> simp_all
  · cases x with
    | none => simp [classify_disease_type, diseaseLabels]
    | some t =>
      simp only [classify_disease_type, diseaseLabels]
      split_ifs <;> simp
  · intro t hall
    simp only [classifySpecRules, List.all_cons, List.all_nil, Bool.and_eq_true,
      Bool.not_eq_true'] at hall
    simp only [classify_disease_type]
    split_ifs <;> simp_all

/-- **C5 witness.** The refinement at a matching input, and the generic
bucket at an input matching no rule. -/
theorem classify_disease_type_total_witness :
    classify_disease_type (some "lada insulin".data) =
      classifySpec (some "lada insulin".data) ∧
    classify_disease_type (some "hypertension".data) = "Diabetes (General)" :=
  ⟨(classify_disease_type_total (some "lada insulin".data)).1,
   (classify_disease_type_total (some "hypertension".data)).2.2.2
     "hypertension".data (by decide)⟩

/-! ## C6 — bias-level thresholds and monotonicity -/

/-- **C6.** The overall bias level is HIGH iff the warning count is ≥ 2,
MEDIUM iff it is 1, LOW iff it is 0; the level is monotone in the warning
count, and the diabetes report's level is exactly this function of its
warning count. -/
theorem bias_level_rule (m n : Nat) (hmn : m ≤ n) :
    (biasLevel n = "HIGH" ↔ 2 ≤ n) ∧
    (biasLevel n = "MEDIUM" ↔ n = 1) ∧
    (biasLevel n = "LOW" ↔ n = 0) ∧
    biasLevelRank (biasLevel m) ≤ biasLevelRank (biasLevel n) ∧
    (∀ df : Table, (db_generate_bias_report df).bias_level =
      biasLevel (db_generate_bias_report df).warnings.length) := by
  have hrank : ∀ j : Nat, biasLevelRank (biasLevel j) =
      if 2 ≤ j then 2 else if j = 1 then 1 else 0 := by
    intro j
    simp only [biasLevel, biasLevelRank, ge_iff_le]
    split_ifs <;> simp_all
  refine ⟨?_, ?_, ?_, ?_, fun df => rfl⟩
  · simp only [biasLevel, ge_iff_le]
    split_ifs <;> simp_all <;> omega
  · simp only [biasLevel, ge_iff_le]
    split_ifs <;> simp_all <;> omega
  · simp only [biasLevel, ge_iff_le]
    split_ifs <;> simp_all <;> omega
  · rw [hrank, hrank]
    split_ifs <;> omega

/-- **C6 witness.** Two warnings reach HIGH, and one-to-two warnings never
lower the rank. -/
theorem bias_level_rule_witness :
    biasLevel 2 = "HIGH" ∧
    biasLevelRank (biasLevel 1) ≤ biasLevelRank (biasLevel 2) :=
  ⟨(bias_level_rule 1 2 (by norm_num)).1.mpr (by norm_num),
   (bias_level_rule 1 2 (by norm_num)).2.2.2.1⟩

/-! ## C7 — missing slice columns never fail the generic bias report -/

/-- **C7.** For every requested slice column: if it is absent from the table
its report entry is exactly the `column_not_found` marker, and if present
the computed slice is produced — the report is total either way. -/
theorem bc_column_not_found (df : Table) (sliceColumns : List String) (c : String)
    (hc : c ∈ sliceColumns) :
    (c ∉ df.cols →
      (bc_generate_bias_report df sliceColumns).slices.lookup c =
        some SliceEntry.columnNotFound) ∧
    (c ∈ df.cols → ∃ cnt pct ms,
      (bc_generate_bias_report df sliceColumns).slices.lookup c =
        some (SliceEntry.computed cnt pct ms)) := by
  have hl : (bc_generate_bias_report df sliceColumns).slices.lookup c =
      some (sliceEntryFor df c) := lookup_map_pair (sliceEntryFor df) sliceColumns c hc
  constructor
  · intro h
    rw [hl]
    simp [sliceEntryFor, h]
  · intro h
    rw [hl]
    exact ⟨(valueCountsWithPct (colCells df c)).1, (valueCountsWithPct (colCells df c)).2,
      missingnessBySlice df c (bcCandidateCols.filter (fun x => df.cols.contains x)),
      by simp [sliceEntryFor, h]⟩

/-- **C7 witness.** Requesting `Phase` on a `Sex`-only table yields the
marker while the present `Sex` slice is still computed. -/
theorem bc_column_not_found_witness :
    (bc_generate_bias_report witSliceTable ["Sex", "Phase"]).slices.lookup "Phase" =
      some SliceEntry.columnNotFound ∧
    ∃ cnt pct ms,
      (bc_generate_bias_report witSliceTable ["Sex", "Phase"]).slices.lookup "Sex" =
        some (SliceEntry.computed cnt pct ms) :=
  ⟨(bc_column_not_found witSliceTable ["Sex", "Phase"] "Phase" (by decide)).1
     (by decide),
   (bc_column_not_found witSliceTable ["Sex", "Phase"] "Sex" (by decide)).2
     (by decide)⟩

/-! ## C8 — validation accumulates, NCT-format threshold -/

/-- **C8.** Validation runs every check and accumulates the error lists, the
overall result is pass iff no check produced an error, and an
invalid-identifier error appears iff more than 10% of rows fail
`^NCT\d{8}$` (at or below the threshold no error is added). -/
theorem validation_accumulates (df : Table) :
    (run_validation df = true ↔ validationErrors df = []) ∧
    (run_validation df = true ↔
      (validate_not_empty df = [] ∧ validate_schema df = [] ∧
       validate_nct_format df = [] ∧ validate_new_columns df = [] ∧
       validate_critical_nulls df = [])) ∧
    ((∃ k, VErr.invalidNct k ∈ validationErrors df) ↔
      ("NCT Number" ∈ df.cols ∧
        (nRows df : ℚ) / 10 < (nctInvalidCount df : ℚ))) := by
  have h1 : run_validation df = true ↔ validationErrors df = [] := by
    simp [run_validation]
  have hnotmem : ∀ k, VErr.invalidNct k ∉ validate_not_empty df ∧
      VErr.invalidNct k ∉ validate_schema df ∧
      VErr.invalidNct k ∉ validate_new_columns df ∧
      VErr.invalidNct k ∉ validate_critical_nulls df := by
    intro k
    refine ⟨?_, ?_, ?_, ?_⟩
    · simp only [validate_not_empty]; split_ifs <;> simp
    · simp only [validate_schema]; split_ifs <;> simp
    · simp only [validate_new_columns]; split_ifs <;> simp
    · simp only [validate_critical_nulls]; simp
  have hnct : (∃ k, VErr.invalidNct k ∈ validate_nct_format df) ↔
      ("NCT Number" ∈ df.cols ∧
        (nRows df : ℚ) / 10 < (nctInvalidCount df : ℚ)) := by
    unfold validate_nct_format
    by_cases hcol : df.cols.contains "NCT Number"
    · rw [if_neg (not_not_intro hcol)]
      have hmem : "NCT Number" ∈ df.cols := List.mem_of_elem_eq_true hcol
      simp only [hmem, true_and]
      constructor
      · rintro ⟨k, hk⟩
        split_ifs at hk with hcond
        · obtain ⟨hpos, hgt⟩ := hcond
          simp only [gt_iff_lt] at hgt
          rcases Nat.eq_zero_or_pos (nRows df) with hz | hp
          · have hle := nct_count_le df
            omega
          · have hn : (0:ℚ) < (nRows df : ℚ) := by exact_mod_cast hp
            rw [div_mul_eq_mul_div, lt_div_iff₀ hn] at hgt
            rw [div_lt_iff₀ (by norm_num : (0:ℚ) < 10)]
            linarith
        · simp at hk
      · intro hlt
        have hpos : 0 < nctInvalidCount df := by
          rcases Nat.eq_zero_or_pos (nctInvalidCount df) with hz | hp
          · rw [hz] at hlt
            push_cast at hlt
            have : (0:ℚ) ≤ (nRows df : ℚ) / 10 := by positivity
            linarith
          · exact hp
        have hp : 0 < nRows df := Nat.lt_of_lt_of_le hpos (nct_count_le df)
        have hn : (0:ℚ) < (nRows df : ℚ) := by exact_mod_cast hp
        rw [div_lt_iff₀ (by norm_num : (0:ℚ) < 10)] at hlt
        have hgt : (10:ℚ) < (nctInvalidCount df : ℚ) / (nRows df : ℚ) * 100 := by
          rw [div_mul_eq_mul_div, lt_div_iff₀ hn]
          linarith
        refine ⟨nctInvalidCount df, ?_⟩
        rw [if_pos ⟨hpos, hgt⟩]
        simp
    · rw [if_pos hcol]
      simp only [List.not_mem_nil, exists_false, false_iff]
      intro hc
      exact hcol (List.elem_eq_true_of_mem hc.1)
  refine ⟨h1, ?_, ?_⟩
  · rw [h1]
    unfold validationErrors
    simp [List.append_eq_nil]
  · rw [← hnct]
    unfold validationErrors
    constructor
    · rintro ⟨k, hk⟩
      simp only [List.mem_append] at hk
      rcases hk with ((((hk | hk) | hk) | hk) | hk)
      · exact absurd hk (hnotmem k).1
      · exact absurd hk (hnotmem k).2.1
      · exact ⟨k, hk⟩
      · exact absurd hk (hnotmem k).2.2.1
      · exact absurd hk (hnotmem k).2.2.2
    · rintro ⟨k, hk⟩
      exact ⟨k, by simp only [List.mem_append]; tauto⟩

/-! ## C9 — the sex-imbalance warning -/

/-- **C9.** The sex-imbalance warning appears in the diabetes bias report
iff both sex counts are positive and their ratio lies outside [0.5, 2]; and
whenever it appears the bias level is at least MEDIUM. -/
theorem db_sex_imbalance_warning (df : Table) (h : "Sex" ∈ df.cols) :
    ((∃ m f, BWarn.sexImbalance m f ∈ (db_generate_bias_report df).warnings) ↔
      (0 < maleCount df ∧ 0 < femaleCount df ∧
        (2 < (maleCount df : ℚ) / (femaleCount df : ℚ) ∨
         (maleCount df : ℚ) / (femaleCount df : ℚ) < 1/2))) ∧
    ((∃ m f, BWarn.sexImbalance m f ∈ (db_generate_bias_report df).warnings) →
      1 ≤ biasLevelRank (db_generate_bias_report df).bias_level) := by
  have hwar : (db_generate_bias_report df).warnings = dbWarnings df := rfl
  have hage : ∀ m f, BWarn.sexImbalance m f ∉ ageWarnings df := by
    intro m f
    unfold ageWarnings
    split_ifs <;> simp
  have hgeo : ∀ m f, BWarn.sexImbalance m f ∉ geoWarnings df := by
    intro m f
    unfold geoWarnings
    split_ifs <;> simp
  have hsex : (∃ m f, BWarn.sexImbalance m f ∈ sexWarnings df) ↔
      (0 < maleCount df ∧ 0 < femaleCount df ∧
        (2 < (maleCount df : ℚ) / (femaleCount df : ℚ) ∨
         (maleCount df : ℚ) / (femaleCount df : ℚ) < 1/2)) := by
    unfold sexWarnings
    rw [if_pos (List.elem_eq_true_of_mem h)]
    constructor
    · intro hex
      obtain ⟨m, f, hm⟩ := hex
      simp only [gt_iff_lt] at hm
      split_ifs at hm with h1 h2
      · exact ⟨h1.1, h1.2, h2⟩
      · simp at hm
      · simp at hm
    · rintro ⟨hm, hf, hr⟩
      refine ⟨maleCount df, femaleCount df, ?_⟩
      simp only [gt_iff_lt]
      rw [if_pos ⟨hm, hf⟩, if_pos hr]
      simp
  constructor
  · rw [hwar]
    unfold dbWarnings
    simp only [List.mem_append]
    constructor
    · rintro ⟨m, f, (hm | hm) | hm⟩
      · exact absurd hm (hage m f)
      · exact hsex.mp ⟨m, f, hm⟩
      · exact absurd hm (hgeo m f)
    · intro hc
      obtain ⟨m, f, hm⟩ := hsex.mpr hc
      exact ⟨m, f, Or.inl (Or.inr hm)⟩
  · intro hex
    have hbl : (db_generate_bias_report df).bias_level =
        biasLevel (dbWarnings df).length := rfl
    rw [hbl]
    apply rank_pos_of_warn
    obtain ⟨m, f, hm⟩ := hex
    rw [hwar] at hm
    have hne : dbWarnings df ≠ [] := by
      intro hnil
      rw [hnil] at hm
      simp at hm
    have hlen : 0 < (dbWarnings df).length := List.length_pos.mpr hne
    omega

set_option maxRecDepth 4000 in
/-- **C9 witness.** 30 male and 5 female trials (ratio 6) raise the warning
and the level is at least MEDIUM. -/
theorem db_sex_imbalance_warning_witness :
    (∃ m f, BWarn.sexImbalance m f ∈ (db_generate_bias_report witSexTable).warnings) ∧
    1 ≤ biasLevelRank (db_generate_bias_report witSexTable).bias_level := by
  have h := db_sex_imbalance_warning witSexTable (by decide)
  have hm : maleCount witSexTable = 30 := by decide
  have hf : femaleCount witSexTable = 5 := by decide
  have hc : 0 < maleCount witSexTable ∧ 0 < femaleCount witSexTable ∧
      (2 < (maleCount witSexTable : ℚ) / (femaleCount witSexTable : ℚ) ∨
       (maleCount witSexTable : ℚ) / (femaleCount witSexTable : ℚ) < 1/2) := by
    rw [hm, hf]
    refine ⟨by norm_num, by norm_num, Or.inl (by norm_num)⟩
  exact ⟨h.1.mpr hc, h.2 (h.1.mpr hc)⟩

/-! ## C1 — the anomaly detector's quality score (corrected) -/

/-- **C1 counterexample.** A one-row table whose two columns are both fully
missing records two anomaly entries, and the quality score is −100 — outside
[0, 100] although the row count is positive. -/
theorem anomaly_score_negative :
    0 < nRows cexAnomalyTable ∧ dataQualityScore cexAnomalyTable = -100 := by
  have hhm : highMissingCols cexAnomalyTable = ["A", "B"] := by
    simp [highMissingCols, cexAnomalyTable, nRows, nullCount, colCells, cellAt,
      List.filter, List.countP, List.countP.go]
    norm_num
  have h2 : totalAnomalies cexAnomalyTable = 2 := by
    unfold totalAnomalies
    rw [hhm]
    simp [outlierEntries, dupEntries, invalidFmtEntries, cexAnomalyTable]
  have h1 : nRows cexAnomalyTable = 1 := rfl
  refine ⟨by omega, ?_⟩
  have hr : round (((100:ℚ) - (2:ℚ)/(1:ℚ)*100)*100) = -10000 := by
    have hc : ((100:ℚ) - (2:ℚ)/(1:ℚ)*100)*100 = ((-10000:ℤ):ℚ) := by norm_num
    rw [hc, round_intCast]
  simp only [dataQualityScore, h1, h2, round2]
  norm_num at hr ⊢
  rw [hr]
  norm_num

/-- **C1 (amended).** The quality score is the rounded formula and is 0 on an
empty table; for a nonempty table it is at most 100, and it is nonnegative
whenever the anomaly-entry count does not exceed the row count. The [0, 100]
lower bound of the original claim fails: the score can go negative (to −100)
when the entries outnumber the rows, as the counterexample shows. (The
sufficient condition is not necessary: rounding to 2 decimals can lift a
barely negative raw value back to 0.) -/
theorem anomaly_quality_score (df : Table) :
    (nRows df = 0 → dataQualityScore df = 0) ∧
    (0 < nRows df →
      dataQualityScore df =
        round2 (100 - (totalAnomalies df : ℚ) / (nRows df : ℚ) * 100) ∧
      dataQualityScore df ≤ 100 ∧
      (totalAnomalies df ≤ nRows df → 0 ≤ dataQualityScore df)) := by
  constructor
  · intro h
    simp [dataQualityScore, h]
  · intro h
    have hn : (0:ℚ) < (nRows df : ℚ) := by exact_mod_cast h
    have hfrac0 : (0:ℚ) ≤ (totalAnomalies df : ℚ) / (nRows df : ℚ) * 100 := by positivity
    refine ⟨by simp [dataQualityScore, h], ?_, ?_⟩
    · have h1 : round ((100 - (totalAnomalies df : ℚ) / (nRows df : ℚ) * 100) * 100) ≤
          round ((10000 : ℚ)) := round_mono' _ _ (by linarith)
      have h2 : round ((10000 : ℚ)) = 10000 := by
        have h3 := round_intCast (α := ℚ) 10000
        simpa using h3
      have h3 : ((round ((100 - (totalAnomalies df : ℚ) / (nRows df : ℚ) * 100) * 100) : ℤ) : ℚ) ≤
          10000 := by
        rw [h2] at h1
        exact_mod_cast h1
      simp only [dataQualityScore, if_pos h, round2]
      linarith
    · intro hle
      have hfr : (totalAnomalies df : ℚ) / (nRows df : ℚ) ≤ 1 := by
        rw [div_le_one hn]
        exact_mod_cast hle
      have h1 : round ((0:ℚ)) ≤
          round ((100 - (totalAnomalies df : ℚ) / (nRows df : ℚ) * 100) * 100) :=
        round_mono' _ _ (by nlinarith)
      have h3 : (0:ℚ) ≤
          ((round ((100 - (totalAnomalies df : ℚ) / (nRows df : ℚ) * 100) * 100) : ℤ) : ℚ) := by
        rw [round_zero] at h1
        exact_mod_cast h1
      simp only [dataQualityScore, if_pos h, round2]
      linarith

/-- **C1 witness.** A clean one-row table: the bounds apply and give a score
inside [0, 100]. -/
theorem anomaly_quality_score_witness :
    0 < nRows witAnomalyTable ∧ dataQualityScore witAnomalyTable ≤ 100 ∧
      0 ≤ dataQualityScore witAnomalyTable :=
  ⟨by decide,
   ((anomaly_quality_score witAnomalyTable).2 (by decide)).2.1,
   ((anomaly_quality_score witAnomalyTable).2 (by decide)).2.2
     (by rw [totalAnomalies_wit_eval]; exact Nat.zero_le _)⟩

/-! ## C10 — the in-place `_score` frame effect of `remove_duplicates` -/

/-- Index of a fresh name appended on the right. -/
theorem indexOf_append_self (l : List String) (x : String) (h : x ∉ l) :
    (l ++ [x]).indexOf x = l.length := by
  induction l with
  | nil => simp [List.indexOf, List.findIdx_cons]
  | cons d rest ih =>
    have hxd : (d == x) = false :=
      beq_eq_false_iff_ne.mpr (fun he => h (he ▸ List.mem_cons_self d rest))
    simp only [List.cons_append, List.indexOf_cons, hxd, cond_false, List.length_cons]
    rw [ih (fun hm => h (List.mem_cons_of_mem d hm))]

/-- Erasing the appended last element restores the list. -/
theorem eraseIdx_append_length {α : Type} (l : List α) (x : α) :
    (l ++ [x]).eraseIdx l.length = l := by
  induction l with
  | nil => rfl
  | cons d rest ih =>
    simp only [List.cons_append, List.length_cons, List.eraseIdx_cons_succ]
    rw [ih]

/-- Assigning a fresh column appends it on the right, cell by cell. -/
theorem setCol_new (df : Table) (name : String) (f : List Cell → Cell)
    (h : name ∉ df.cols) :
    (setCol df name (df.rows.map f)).cols = df.cols ++ [name] ∧
    (setCol df name (df.rows.map f)).rows =
      df.rows.map (fun r => r ++ [f r]) := by
  have hcont : ¬ df.cols.contains name = true := by
    intro hc
    exact h (List.mem_of_elem_eq_true hc)
  unfold setCol
  rw [if_neg hcont]
  refine ⟨rfl, ?_⟩
  simp only []
  rw [← List.map_prod_left_eq_zip f, List.map_map]
  rfl

/-- **C10 counterexample.** On a table that already owns a `_score` column
the assignment overwrites in place: the caller's table gains no extra
column, refuting the claim's universal statement. -/
theorem score_column_overwrite :
    (remove_duplicates_full cexScoreTable "NCT Number").1.cols ≠
      cexScoreTable.cols ++ ["_score"] ∧
    (remove_duplicates_full cexScoreTable "NCT Number").1.cols = cexScoreTable.cols := by
  constructor
  · decide
  · decide

/-- **C10 (amended).** For every input table not already containing a
`_score` column, the call mutates the caller's table by appending a
`_score` column holding each row's non-missing-cell count — every original
cell unchanged — while the returned table has the column dropped. -/
theorem remove_duplicates_frame_effect (df : Table) (column : String)
    (hs : "_score" ∉ df.cols) :
    (remove_duplicates_full df column).1.cols = df.cols ++ ["_score"] ∧
    (remove_duplicates_full df column).1.rows =
      df.rows.map (fun r => r ++ [some (Val.num (rowScore r))]) ∧
    (remove_duplicates_full df column).2.cols = df.cols := by
  obtain ⟨hc, hr⟩ := setCol_new df "_score" (fun r => some (Val.num (rowScore r))) hs
  unfold remove_duplicates_full
  simp only []
  refine ⟨hc, hr, ?_⟩
  rw [hc, indexOf_append_self df.cols "_score" hs, eraseIdx_append_length]

/-- **C10 witness.** The frame effect at the concrete three-row table. -/
theorem remove_duplicates_frame_effect_witness :
    (remove_duplicates_full witDedupTable "NCT Number").1.cols =
      witDedupTable.cols ++ ["_score"] ∧
    (remove_duplicates_full witDedupTable "NCT Number").2.cols = witDedupTable.cols :=
  ⟨(remove_duplicates_frame_effect witDedupTable "NCT Number" (by decide)).1,
   (remove_duplicates_frame_effect witDedupTable "NCT Number" (by decide)).2.2⟩

/-! ## C3 — the deduplication policy -/

theorem textLT_irrefl (s : Text) : textLT s s = false := by
  induction s with
  | nil => rfl
  | cons c cs ih =>
    simp only [textLT, decide_eq_false_iff_not]
    rintro (h | ⟨-, h⟩)
    · exact lt_irrefl _ h
    · rw [ih] at h
      cases h

/-- Lexicographic text order is asymmetric. -/
theorem textLT_asymm (s t : Text) (h : textLT s t = true) : textLT t s = false := by
  induction s generalizing t with
  | nil =>
    cases t with
    | nil => cases h
    | cons d ds => rfl
  | cons c cs ih =>
    cases t with
    | nil => cases h
    | cons d ds =>
      simp only [textLT, decide_eq_true_eq] at h
      simp only [textLT, decide_eq_false_iff_not]
      rintro (h2 | ⟨he, h2⟩)
      · rcases h with h1 | ⟨he, h1⟩
        · exact absurd h2 (lt_asymm h1)
        · subst he
          exact lt_irrefl _ h2
      · subst he
        rcases h with h1 | ⟨-, h1⟩
        · exact lt_irrefl _ h1
        · rw [ih ds h1] at h2
          cases h2

/-- Lexicographic text order is transitive. -/
theorem textLT_trans (s t u : Text) (h1 : textLT s t = true) (h2 : textLT t u = true) :
    textLT s u = true := by
  induction s generalizing t u with
  | nil =>
    cases u with
    | nil =>
      cases t with
      | nil => cases h1
      | cons d ds => cases h2
    | cons e es => rfl
  | cons c cs ih =>
    cases t with
    | nil => cases h1
    | cons d ds =>
      cases u with
      | nil => cases h2
      | cons e es =>
        simp only [textLT, decide_eq_true_eq] at h1 h2 ⊢
        rcases h1 with ha | ⟨hae, ha⟩ <;> rcases h2 with hb | ⟨hbe, hb⟩
        · exact Or.inl (lt_trans ha hb)
        · exact Or.inl (hbe ▸ ha)
        · exact Or.inl (hae ▸ hb)
        · exact Or.inr ⟨hae.trans hbe, ih ds es ha hb⟩

/-- Lexicographic text order is connex on distinct texts. -/
theorem textLT_connex (s t : Text) (h : textLT s t = false) (hne : s ≠ t) :
    textLT t s = true := by
  induction s generalizing t with
  | nil =>
    cases t with
    | nil => exact absurd rfl hne
    | cons d ds => cases h
  | cons c cs ih =>
    cases t with
    | nil => rfl
    | cons d ds =>
      simp only [textLT, decide_eq_false_iff_not] at h
      push_neg at h
      simp only [textLT, decide_eq_true_eq]
      rcases lt_trichotomy d c with hlt | heq | hgt
      · exact Or.inl hlt
      · subst heq
        refine Or.inr ⟨rfl, ?_⟩
        have hne' : cs ≠ ds := fun he => hne (by rw [he])
        have hf : textLT cs ds = false := Bool.eq_false_iff.mpr (h.2 rfl)
        exact ih ds hf hne'
      · exact absurd hgt (not_lt.mpr h.1)

/-- Value order is irreflexive. -/
theorem valLT_irrefl (v : Val) : valLT v v = false := by
  cases v with
  | str s => simpa [valLT] using textLT_irrefl s
  | num q => simp [valLT]

/-- Value order is asymmetric. -/
theorem valLT_asymm : ∀ a b : Val, valLT a b = true → valLT b a = false
  | .str s, .str t, h => textLT_asymm s t h
  | .num q, .num r, h => by
    simp only [valLT, decide_eq_true_eq] at h
    simp only [valLT, decide_eq_false_iff_not]
    exact lt_asymm h
  | .num _, .str _, _ => rfl
  | .str _, .num _, h => by cases h

/-- Value order is transitive. -/
theorem valLT_trans : ∀ a b c : Val, valLT a b = true → valLT b c = true →
    valLT a c = true
  | .str s, .str t, .str u, h1, h2 => textLT_trans s t u h1 h2
  | .num q, .num r, .num p, h1, h2 => by
    simp only [valLT, decide_eq_true_eq] at h1 h2 ⊢
    exact lt_trans h1 h2
  | .num _, .num _, .str _, _, _ => rfl
  | .num _, .str _, .str _, _, _ => rfl
  | .num _, .str _, .num _, _, h2 => by cases h2
  | .str _, .num _, _, h1, _ => by cases h1
  | .str _, .str _, .num _, _, h2 => by cases h2

/-- Value order is connex on distinct values. -/
theorem valLT_connex : ∀ a b : Val, valLT a b = false → a ≠ b → valLT b a = true
  | .str s, .str t, h, hne =>
    textLT_connex s t h (fun he => hne (by rw [he]))
  | .num q, .num r, h, hne => by
    simp only [valLT, decide_eq_false_iff_not] at h
    simp only [valLT, decide_eq_true_eq]
    exact lt_of_le_of_ne (not_lt.mp h) (fun he => hne (by rw [he]))
  | .num _, .str _, h, _ => by cases h
  | .str _, .num _, _, _ => rfl

/-- Key order is irreflexive. -/
theorem cellKeyLT_irrefl (k : Cell) : cellKeyLT k k = false := by
  cases k with
  | none => rfl
  | some v => exact valLT_irrefl v

/-- Key order is asymmetric. -/
theorem cellKeyLT_asymm : ∀ a b : Cell, cellKeyLT a b = true → cellKeyLT b a = false
  | some v, some w, h => valLT_asymm v w h
  | some _, none, _ => rfl
  | none, _, h => by cases h

/-- Key order is transitive. -/
theorem cellKeyLT_trans : ∀ a b c : Cell, cellKeyLT a b = true → cellKeyLT b c = true →
    cellKeyLT a c = true
  | some v, some w, some u, h1, h2 => valLT_trans v w u h1 h2
  | some _, some _, none, _, _ => rfl
  | some _, none, _, _, h2 => by cases h2
  | none, _, _, h1, _ => by cases h1

/-- Key order is connex on distinct keys. -/
theorem cellKeyLT_connex : ∀ a b : Cell, cellKeyLT a b = false → a ≠ b →
    cellKeyLT b a = true
  | some v, some w, h, hne => valLT_connex v w h (fun he => hne (by rw [he]))
  | some _, none, h, _ => by cases h
  | none, some _, _, _ => rfl
  | none, none, _, hne => absurd rfl hne

/-- The sort comparator is total. -/
theorem rowLE_total (kIdx sIdx : Nat) (a b : List Cell)
    (h : rowLE kIdx sIdx a b = false) : rowLE kIdx sIdx b a = true := by
  simp only [rowLE, decide_eq_false_iff_not] at h
  push_neg at h
  simp only [rowLE, decide_eq_true_eq]
  obtain ⟨hk, hsc⟩ := h
  by_cases he : cellAt a kIdx = cellAt b kIdx
  · have hlt := hsc he
    exact Or.inr ⟨he.symm, hlt.le⟩
  · exact Or.inl (cellKeyLT_connex _ _ (Bool.eq_false_iff.mpr hk) he)

/-- The sort comparator is transitive. -/
theorem rowLE_trans (kIdx sIdx : Nat) (a b c : List Cell)
    (h1 : rowLE kIdx sIdx a b = true) (h2 : rowLE kIdx sIdx b c = true) :
    rowLE kIdx sIdx a c = true := by
  simp only [rowLE, decide_eq_true_eq] at h1 h2 ⊢
  rcases h1 with h1 | ⟨he1, hs1⟩ <;> rcases h2 with h2 | ⟨he2, hs2⟩
  · exact Or.inl (cellKeyLT_trans _ _ _ h1 h2)
  · exact Or.inl (he2 ▸ h1)
  · exact Or.inl (he1 ▸ h2)
  · exact Or.inr ⟨he1.trans he2, le_trans hs2 hs1⟩

/-- Insertion produces a permutation. -/
theorem insertSorted_perm {α : Type} (le : α → α → Bool) (x : α) (l : List α) :
    (insertSorted le x l).Perm (x :: l) := by
  induction l with
  | nil => exact List.Perm.refl _
  | cons y ys ih =>
    unfold insertSorted
    split_ifs
    · exact List.Perm.refl _
    · exact (ih.cons y).trans (List.Perm.swap x y ys)

/-- Sorting produces a permutation. -/
theorem sortBy_perm {α : Type} (le : α → α → Bool) (l : List α) :
    (sortBy le l).Perm l := by
  induction l with
  | nil => exact List.Perm.refl _
  | cons x xs ih =>
    exact (insertSorted_perm le x (sortBy le xs)).trans (ih.cons x)

/-- Insertion preserves sortedness. -/
theorem insertSorted_sorted {α : Type} (le : α → α → Bool)
    (total : ∀ a b, le a b = false → le b a = true)
    (htr : ∀ a b c, le a b = true → le b c = true → le a c = true)
    (x : α) (l : List α) (hl : l.Pairwise (fun a b => le a b = true)) :
    (insertSorted le x l).Pairwise (fun a b => le a b = true) := by
  induction l with
  | nil => simp [insertSorted]
  | cons y ys ih =>
    rcases List.pairwise_cons.mp hl with ⟨hy, hys⟩
    unfold insertSorted
    split_ifs with hxy
    · refine List.pairwise_cons.mpr ⟨?_, hl⟩
      intro z hz
      rcases List.mem_cons.mp hz with rfl | hz'
      · exact hxy
      · exact htr x y z hxy (hy z hz')
    · refine List.pairwise_cons.mpr ⟨?_, ih hys⟩
      intro z hz
      have hz' := (insertSorted_perm le x ys).mem_iff.mp hz
      rcases List.mem_cons.mp hz' with rfl | hz''
      · exact total z y (Bool.eq_false_iff.mpr hxy)
      · exact hy z hz''

/-- The sort output is sorted. -/
theorem sortBy_sorted {α : Type} (le : α → α → Bool)
    (total : ∀ a b, le a b = false → le b a = true)
    (htr : ∀ a b c, le a b = true → le b c = true → le a c = true)
    (l : List α) :
    (sortBy le l).Pairwise (fun a b => le a b = true) := by
  induction l with
  | nil => exact List.Pairwise.nil
  | cons x xs ih => exact insertSorted_sorted le total htr x (sortBy le xs) ih

/-- Finding with pointwise-equal predicates agrees. -/
theorem find?_congr_mem {α : Type} (p q : α → Bool) (l : List α)
    (h : ∀ x ∈ l, p x = q x) : l.find? p = l.find? q := by
  induction l with
  | nil => rfl
  | cons y ys ih =>
    have hy := h y (List.mem_cons_self y ys)
    simp only [List.find?_cons]
    rw [← hy]
    cases hpy : p y
    · exact ih (fun x hx => h x (List.mem_cons_of_mem y hx))
    · rfl

/-- The head of a stable score-descending sort is the first maximum. -/
theorem head?_sortBy_score (sc : List Cell → ℚ) (l : List (List Cell)) :
    (sortBy (fun a b => decide (sc b ≤ sc a)) l).head? = chooseBestQ sc l := by
  induction l with
  | nil => rfl
  | cons x xs ih =>
    show (insertSorted _ x (sortBy _ xs)).head? = _
    cases hs : sortBy (fun a b => decide (sc b ≤ sc a)) xs with
    | nil =>
      have hxs : xs = [] := by
        have := (sortBy_perm (fun a b => decide (sc b ≤ sc a)) xs).length_eq
        rw [hs] at this
        exact List.length_eq_zero.mp this.symm
      subst hxs
      rfl
    | cons y ys =>
      rw [hs] at ih
      unfold insertSorted
      simp only [chooseBestQ, ← ih, List.head?]
      by_cases hle : sc y ≤ sc x
      · rw [if_pos (by simpa using hle)]
        rw [if_neg (not_lt.mpr hle)]
      · rw [if_neg (by simpa using hle)]
        rw [if_pos (not_le.mp hle)]

/-- Equal keys with descending scores are ordered. -/
theorem rowLE_of_eq_keys_le (kIdx sIdx : Nat) (a b : List Cell)
    (he : cellAt a kIdx = cellAt b kIdx) (hs : scoreAt sIdx b ≤ scoreAt sIdx a) :
    rowLE kIdx sIdx a b = true := by
  simp only [rowLE, decide_eq_true_eq]
  exact Or.inr ⟨he, hs⟩

/-- Case analysis on the sort comparator. -/
theorem rowLE_cases (kIdx sIdx : Nat) (a b : List Cell)
    (h : rowLE kIdx sIdx a b = true) :
    cellKeyLT (cellAt a kIdx) (cellAt b kIdx) = true ∨
      (cellAt a kIdx = cellAt b kIdx ∧ scoreAt sIdx b ≤ scoreAt sIdx a) := by
  simpa only [rowLE, decide_eq_true_eq] using h

/-- Restricting a stable insertion into a sorted list to one key class
commutes with score-descending insertion (the stability argument). -/
theorem filter_insertSorted (kIdx sIdx : Nat) (k : Cell) (x : List Cell)
    (S : List (List Cell))
    (hS : S.Pairwise (fun a b => rowLE kIdx sIdx a b = true)) :
    (insertSorted (rowLE kIdx sIdx) x S).filter (fun r => cellAt r kIdx == k) =
      if cellAt x kIdx = k then
        insertSorted (fun a b => decide (scoreAt sIdx b ≤ scoreAt sIdx a)) x
          (S.filter (fun r => cellAt r kIdx == k))
      else S.filter (fun r => cellAt r kIdx == k) := by
  induction S with
  | nil =>
    by_cases hxk : cellAt x kIdx = k
    · rw [if_pos hxk]
      show List.filter _ [x] = insertSorted _ x []
      rw [List.filter_cons_of_pos (by simpa using hxk)]
      rfl
    · rw [if_neg hxk]
      show List.filter _ [x] = []
      rw [List.filter_cons_of_neg (by simpa using hxk)]
      rfl
  | cons y ys ih =>
    rcases List.pairwise_cons.mp hS with ⟨hy, hys⟩
    show (if rowLE kIdx sIdx x y = true then x :: y :: ys
        else y :: insertSorted (rowLE kIdx sIdx) x ys).filter _ = _
    by_cases hle : rowLE kIdx sIdx x y = true
    · rw [if_pos hle]
      by_cases hxk : cellAt x kIdx = k
      · rw [if_pos hxk, List.filter_cons_of_pos (by simpa using hxk)]
        by_cases hyk : cellAt y kIdx = k
        · have hkeys : cellAt x kIdx = cellAt y kIdx := by rw [hxk, hyk]
          have hsc : scoreAt sIdx y ≤ scoreAt sIdx x := by
            rcases rowLE_cases kIdx sIdx x y hle with h' | ⟨-, h'⟩
            · rw [hkeys, cellKeyLT_irrefl] at h'
              cases h'
            · exact h'
          rw [List.filter_cons_of_pos (by simpa using hyk)]
          show _ = insertSorted _ x (y :: _)
          simp only [insertSorted]
          rw [if_pos (by simpa using hsc)]
        · have hkxy : cellKeyLT (cellAt x kIdx) (cellAt y kIdx) = true := by
            rcases rowLE_cases kIdx sIdx x y hle with h' | ⟨he, -⟩
            · exact h'
            · exact absurd (hxk ▸ he).symm (by simpa using hyk)
          have hfilter_nil : (y :: ys).filter (fun r => cellAt r kIdx == k) = [] := by
            rw [List.filter_eq_nil_iff]
            intro z hz
            simp only [beq_iff_eq]
            rcases List.mem_cons.mp hz with rfl | hz'
            · exact hyk
            · intro hzk
              rcases rowLE_cases kIdx sIdx y z (hy z hz') with h' | ⟨he', -⟩
              · have h1 : cellKeyLT k (cellAt y kIdx) = true := by
                  rw [← hxk]; exact hkxy
                have h2 : cellKeyLT (cellAt y kIdx) k = true := by
                  rw [← hzk]; exact h'
                have h3 := cellKeyLT_trans _ _ _ h1 h2
                rw [cellKeyLT_irrefl] at h3
                cases h3
              · exact hyk (he'.trans hzk)
          rw [hfilter_nil]
          rfl
      · rw [if_neg hxk, List.filter_cons_of_neg (by simpa using hxk)]
    · rw [if_neg hle]
      by_cases hyk : cellAt y kIdx = k
      · rw [List.filter_cons_of_pos (by simpa using hyk),
          List.filter_cons_of_pos (l := ys) (by simpa using hyk)]
        by_cases hxk : cellAt x kIdx = k
        · have hkeys : cellAt x kIdx = cellAt y kIdx := by rw [hxk, hyk]
          have hns : ¬ (scoreAt sIdx y ≤ scoreAt sIdx x) := fun hsc =>
            hle (rowLE_of_eq_keys_le kIdx sIdx x y hkeys hsc)
          rw [if_pos hxk, ih hys, if_pos hxk]
          show _ = insertSorted _ x (y :: _)
          simp only [insertSorted]
          rw [if_neg (by simpa using hns)]
        · rw [if_neg hxk, ih hys, if_neg hxk]
      · rw [List.filter_cons_of_neg (by simpa using hyk),
          List.filter_cons_of_neg (l := ys) (by simpa using hyk)]
        by_cases hxk : cellAt x kIdx = k
        · rw [if_pos hxk, ih hys, if_pos hxk]
        · rw [if_neg hxk, ih hys, if_neg hxk]

/-- Restricting the stable (key, score) sort to one key class is exactly
the stable score-descending sort of that class. -/
theorem filter_sortBy (kIdx sIdx : Nat) (k : Cell) (l : List (List Cell)) :
    (sortBy (rowLE kIdx sIdx) l).filter (fun r => cellAt r kIdx == k) =
      sortBy (fun a b => decide (scoreAt sIdx b ≤ scoreAt sIdx a))
        (l.filter (fun r => cellAt r kIdx == k)) := by
  induction l with
  | nil => rfl
  | cons x xs ih =>
    show (insertSorted _ x (sortBy _ xs)).filter _ = _
    rw [filter_insertSorted kIdx sIdx k x (sortBy (rowLE kIdx sIdx) xs)
      (sortBy_sorted _ (rowLE_total kIdx sIdx) (rowLE_trans kIdx sIdx) xs)]
    by_cases hxk : cellAt x kIdx = k
    · rw [if_pos hxk, ih, List.filter_cons_of_pos (by simpa using hxk)]
      rfl
    · rw [if_neg hxk, ih, List.filter_cons_of_neg (by simpa using hxk)]

/-- Dedup never grows the list. -/
theorem dedupByKey_length (kIdx : Nat) :
    ∀ (l : List (List Cell)) (seen : List Cell),
      (dedupByKey kIdx seen l).length ≤ l.length := by
  intro l
  induction l with
  | nil => intro seen; exact le_rfl
  | cons r rs ih =>
    intro seen
    unfold dedupByKey
    split_ifs
    · exact le_trans (ih seen) (Nat.le_succ _)
    · simpa using ih (cellAt r kIdx :: seen)

/-- Dedup keeps only original rows. -/
theorem dedupByKey_subset (kIdx : Nat) :
    ∀ (l : List (List Cell)) (seen : List Cell) (r : List Cell),
      r ∈ dedupByKey kIdx seen l → r ∈ l := by
  intro l
  induction l with
  | nil => intro seen r h; cases h
  | cons a rs ih =>
    intro seen r h
    unfold dedupByKey at h
    split_ifs at h
    · exact List.mem_cons_of_mem a (ih seen r h)
    · rcases List.mem_cons.mp h with rfl | h'
      · exact List.mem_cons_self _ _
      · exact List.mem_cons_of_mem a (ih _ r h')

/-- Dedup output has pairwise-distinct keys, none previously seen. -/
theorem dedupByKey_nodup_keys (kIdx : Nat) :
    ∀ (l : List (List Cell)) (seen : List Cell),
      ((dedupByKey kIdx seen l).map (fun r => cellAt r kIdx)).Nodup ∧
      (∀ r ∈ dedupByKey kIdx seen l, cellAt r kIdx ∉ seen) := by
  intro l
  induction l with
  | nil => intro seen; exact ⟨List.nodup_nil, fun r h => absurd h (List.not_mem_nil r)⟩
  | cons a rs ih =>
    intro seen
    unfold dedupByKey
    split_ifs with hseen
    · exact ih seen
    · obtain ⟨hnd, hnotin⟩ := ih (cellAt a kIdx :: seen)
      refine ⟨?_, ?_⟩
      · simp only [List.map_cons, List.nodup_cons]
        refine ⟨?_, hnd⟩
        intro hmem
        obtain ⟨r, hr, hre⟩ := List.mem_map.mp hmem
        exact (hnotin r hr) (hre ▸ List.mem_cons_self _ _)
      · intro r hr
        rcases List.mem_cons.mp hr with rfl | hr'
        · exact hseen
        · exact fun hc => (hnotin r hr') (List.mem_cons_of_mem _ hc)

/-- Dedup preserves the set of (unseen) keys. -/
theorem dedupByKey_mem_keys (kIdx : Nat) :
    ∀ (l : List (List Cell)) (seen : List Cell) (k : Cell), k ∉ seen →
      (k ∈ l.map (fun r => cellAt r kIdx) ↔
        k ∈ (dedupByKey kIdx seen l).map (fun r => cellAt r kIdx)) := by
  intro l
  induction l with
  | nil => intro seen k _; exact Iff.rfl
  | cons a rs ih =>
    intro seen k hk
    unfold dedupByKey
    split_ifs with hseen
    · rw [← ih seen k hk]
      simp only [List.map_cons, List.mem_cons]
      constructor
      · rintro (rfl | h)
        · exact absurd hseen hk
        · exact h
      · exact Or.inr
    · simp only [List.map_cons, List.mem_cons]
      by_cases hek : k = cellAt a kIdx
      · subst hek
        simp
      · have hk' : k ∉ cellAt a kIdx :: seen := by
          intro hc
          rcases List.mem_cons.mp hc with h | h
          · exact hek h
          · exact hk h
        rw [← ih _ k hk']

/-- Dedup keeps each key's first occurrence. -/
theorem dedupByKey_find? (kIdx : Nat) :
    ∀ (l : List (List Cell)) (seen : List Cell) (k : Cell), k ∉ seen →
      (dedupByKey kIdx seen l).find? (fun r => cellAt r kIdx == k) =
        l.find? (fun r => cellAt r kIdx == k) := by
  intro l
  induction l with
  | nil => intro seen k _; rfl
  | cons a rs ih =>
    intro seen k hk
    unfold dedupByKey
    split_ifs with hseen
    · have hak : (cellAt a kIdx == k) = false := by
        refine beq_eq_false_iff_ne.mpr ?_
        intro he
        exact hk (he ▸ hseen)
      rw [List.find?_cons, hak]
      exact ih seen k hk
    · by_cases hek : cellAt a kIdx = k
      · rw [List.find?_cons, List.find?_cons]
        rw [beq_iff_eq.mpr hek]
      · have hak : (cellAt a kIdx == k) = false := beq_eq_false_iff_ne.mpr hek
        rw [List.find?_cons, List.find?_cons, hak]
        refine ih _ k ?_
        intro hc
        rcases List.mem_cons.mp hc with h | h
        · exact hek h.symm
        · exact hk h

/-- The chosen best row is a member. -/
theorem chooseBestQ_mem (sc : List Cell → ℚ) :
    ∀ (l : List (List Cell)) (b : List Cell), chooseBestQ sc l = some b → b ∈ l := by
  intro l
  induction l with
  | nil => intro b h; cases h
  | cons r rs ih =>
    intro b h
    unfold chooseBestQ at h
    cases hc : chooseBestQ sc rs with
    | none =>
      simp only [hc] at h
      cases h
      exact List.mem_cons_self _ _
    | some b' =>
      simp only [hc] at h
      split_ifs at h
      · cases h
        exact List.mem_cons_of_mem _ (ih _ hc)
      · cases h
        exact List.mem_cons_self _ _

/-- Choosing by pointwise-equal scores agrees. -/
theorem chooseBestQ_congr (sc sc' : List Cell → ℚ) :
    ∀ (l : List (List Cell)), (∀ r ∈ l, sc r = sc' r) →
      chooseBestQ sc l = chooseBestQ sc' l := by
  intro l
  induction l with
  | nil => intro _; rfl
  | cons r rs ih =>
    intro h
    have hr := h r (List.mem_cons_self r rs)
    have hrs := ih (fun x hx => h x (List.mem_cons_of_mem r hx))
    unfold chooseBestQ
    rw [← hrs]
    cases hc : chooseBestQ sc rs with
    | none => simp only [hc]
    | some b =>
      have hb : sc b = sc' b := h b (List.mem_cons_of_mem r (chooseBestQ_mem sc rs b hc))
      simp only [hc]
      rw [hr, hb]

/-- Choosing over a mapped list. -/
theorem chooseBestQ_map (sc : List Cell → ℚ) (f : List Cell → List Cell) :
    ∀ (l : List (List Cell)),
      chooseBestQ sc (l.map f) = (chooseBestQ (fun r => sc (f r)) l).map f := by
  intro l
  induction l with
  | nil => rfl
  | cons r rs ih =>
    rw [List.map_cons]
    unfold chooseBestQ
    rw [ih]
    cases hc : chooseBestQ (fun r => sc (f r)) rs with
    | none => simp [hc]
    | some b =>
      simp only [Option.map_some']
      split_ifs <;> rfl

/-- The rational-score choice coincides with the integer-score one. -/
theorem chooseBestQ_natCast :
    ∀ (l : List (List Cell)),
      chooseBestQ (fun r => (rowScore r : ℚ)) l = chooseBest l := by
  intro l
  induction l with
  | nil => rfl
  | cons r rs ih =>
    unfold chooseBestQ chooseBest
    rw [ih]
    cases hc : chooseBest rs with
    | none => simp only [hc]
    | some b =>
      simp only [hc]
      have hlt : ((rowScore r : ℚ) < (rowScore b : ℚ)) ↔ rowScore b > rowScore r := by
        constructor
        · intro h; exact_mod_cast h
        · intro h; exact_mod_cast h
      by_cases h : rowScore b > rowScore r
      · rw [if_pos (hlt.mpr h), if_pos h]
      · rw [if_neg (fun hc2 => h (hlt.mp hc2)), if_neg h]

/-- Closed form of `remove_duplicates` on a well-formed table. -/
theorem remove_duplicates_eq (df : Table) (column : String)
    (hk : column ∈ df.cols) (hs : "_score" ∉ df.cols) :
    remove_duplicates df column =
      { cols := df.cols,
        rows := (dedupByKey (df.cols.indexOf column) []
          (sortBy (rowLE (df.cols.indexOf column) df.cols.length)
            (df.rows.map (fun r => r ++ [some (Val.num (rowScore r))])))).map
          (fun r => r.eraseIdx df.cols.length) } := by
  obtain ⟨hc1, hr1⟩ := setCol_new df "_score" (fun r => some (Val.num (rowScore r))) hs
  unfold remove_duplicates remove_duplicates_full
  simp only []
  rw [hc1, hr1, List.indexOf_append_of_mem hk, indexOf_append_self df.cols "_score" hs,
    eraseIdx_append_length]

/-- **C3.** On a rectangular table whose key column exists (and which does
not already own the internal `_score` column), deduplication returns a
table with at most as many rows, in which every key of the input appears
exactly once, and whose row for each key is the first input row attaining
the maximum count of non-missing fields in its key group (stable sort on
key ascending then completeness descending, `keep=\"first\"`). -/
theorem remove_duplicates_spec (df : Table) (column : String)
    (hwf : ∀ r ∈ df.rows, r.length = df.cols.length)
    (hk : column ∈ df.cols) (hs : "_score" ∉ df.cols) :
    (remove_duplicates df column).cols = df.cols ∧
    nRows (remove_duplicates df column) ≤ nRows df ∧
    ((remove_duplicates df column).rows.map
      (fun r => cellAt r (df.cols.indexOf column))).Nodup ∧
    (∀ k : Cell,
      k ∈ df.rows.map (fun r => cellAt r (df.cols.indexOf column)) ↔
      k ∈ (remove_duplicates df column).rows.map
        (fun r => cellAt r (df.cols.indexOf column))) ∧
    (∀ k : Cell,
      (remove_duplicates df column).rows.find?
        (fun r => cellAt r (df.cols.indexOf column) == k) =
      chooseBest (df.rows.filter
        (fun r => cellAt r (df.cols.indexOf column) == k))) := by
  have hkL : df.cols.indexOf column < df.cols.length := List.indexOf_lt_length.mpr hk
  rw [remove_duplicates_eq df column hk hs]
  set kIdx := df.cols.indexOf column with hkdef
  set L := df.cols.length with hLdef
  set aug : List Cell → List Cell := fun r => r ++ [some (Val.num (rowScore r))] with haug
  set A := df.rows.map aug with hA
  set S := sortBy (rowLE kIdx L) A with hS
  set D := dedupByKey kIdx [] S with hD
  have hkeyaug : ∀ r ∈ df.rows, cellAt (aug r) kIdx = cellAt r kIdx := by
    intro r hr
    show cellAt (r ++ [_]) kIdx = cellAt r kIdx
    unfold cellAt
    exact List.getD_append r _ none kIdx (by rw [hwf r hr]; exact hkL)
  have hscoreaug : ∀ r ∈ df.rows, scoreAt L (aug r) = (rowScore r : ℚ) := by
    intro r hr
    show scoreAt L (r ++ [_]) = _
    unfold scoreAt cellAt
    rw [← hwf r hr, List.getD_append_right r _ none r.length le_rfl]
    simp
  have heraseaug : ∀ r ∈ df.rows, (aug r).eraseIdx L = r := by
    intro r hr
    show (r ++ [_]).eraseIdx L = r
    rw [← hwf r hr]
    exact eraseIdx_append_length r _
  have hmemA : ∀ x ∈ A, ∃ r ∈ df.rows, aug r = x := fun x hx => List.mem_map.mp hx
  have hmemS : ∀ x ∈ S, x ∈ A := fun x hx => (sortBy_perm (rowLE kIdx L) A).mem_iff.mp hx
  have hmemD : ∀ x ∈ D, ∃ r ∈ df.rows, aug r = x := by
    intro x hx
    exact hmemA x (hmemS x (dedupByKey_subset kIdx S [] x hx))
  have hkeyerase : ∀ d ∈ D, cellAt (d.eraseIdx L) kIdx = cellAt d kIdx := by
    intro d hd
    obtain ⟨r, hr, hre⟩ := hmemD d hd
    rw [← hre, heraseaug r hr, hkeyaug r hr]
  refine ⟨rfl, ?_, ?_, ?_, ?_⟩
  · show (D.map _).length ≤ df.rows.length
    rw [List.length_map]
    calc D.length ≤ S.length := dedupByKey_length kIdx S []
      _ = A.length := (sortBy_perm (rowLE kIdx L) A).length_eq
      _ = df.rows.length := List.length_map _ _
  · show ((D.map (fun r => r.eraseIdx L)).map (fun r => cellAt r kIdx)).Nodup
    rw [List.map_map]
    have hmc : D.map ((fun r => cellAt r kIdx) ∘ (fun r => r.eraseIdx L)) =
        D.map (fun r => cellAt r kIdx) :=
      List.map_eq_map_iff.mpr (fun d hd => hkeyerase d hd)
    rw [hmc]
    exact (dedupByKey_nodup_keys kIdx S []).1
  · intro k
    show k ∈ df.rows.map (fun r => cellAt r kIdx) ↔
      k ∈ (D.map (fun r => r.eraseIdx L)).map (fun r => cellAt r kIdx)
    rw [List.map_map]
    have hmc : D.map ((fun r => cellAt r kIdx) ∘ (fun r => r.eraseIdx L)) =
        D.map (fun r => cellAt r kIdx) :=
      List.map_eq_map_iff.mpr (fun d hd => hkeyerase d hd)
    rw [hmc]
    have h1 : df.rows.map (fun r => cellAt r kIdx) = A.map (fun r => cellAt r kIdx) := by
      rw [hA, List.map_map]
      exact (List.map_eq_map_iff.mpr (fun r hr => (hkeyaug r hr).symm))
    rw [h1]
    have h2 : k ∈ A.map (fun r => cellAt r kIdx) ↔ k ∈ S.map (fun r => cellAt r kIdx) :=
      ((sortBy_perm (rowLE kIdx L) A).map (fun r => cellAt r kIdx)).mem_iff.symm
    rw [h2]
    exact dedupByKey_mem_keys kIdx S [] k (List.not_mem_nil k)
  · intro k
    show (D.map (fun r => r.eraseIdx L)).find? (fun r => cellAt r kIdx == k) =
      chooseBest (df.rows.filter (fun r => cellAt r kIdx == k))
    rw [List.find?_map]
    have hcongr : D.find? ((fun r => cellAt r kIdx == k) ∘ (fun r => r.eraseIdx L)) =
        D.find? (fun r => cellAt r kIdx == k) :=
      find?_congr_mem _ _ D (fun d hd => by
        show (cellAt (d.eraseIdx L) kIdx == k) = (cellAt d kIdx == k)
        rw [hkeyerase d hd])
    rw [hcongr, dedupByKey_find? kIdx S [] k (List.not_mem_nil k),
      ← List.filter_head? (fun r => cellAt r kIdx == k) S, hS,
      filter_sortBy kIdx L k A, head?_sortBy_score (scoreAt L)]
    have hfa : A.filter (fun r => cellAt r kIdx == k) =
        (df.rows.filter (fun r => cellAt r kIdx == k)).map aug := by
      rw [hA, List.map_filter aug df.rows]
      congr 1
      exact List.filter_congr' (fun r hr => by
        show (cellAt (aug r) kIdx == k) = (cellAt r kIdx == k)
        rw [hkeyaug r hr])
    rw [hfa, chooseBestQ_map]
    have hsc : chooseBestQ (fun r => scoreAt L (aug r))
        (df.rows.filter (fun r => cellAt r kIdx == k)) =
        chooseBestQ (fun r => (rowScore r : ℚ))
          (df.rows.filter (fun r => cellAt r kIdx == k)) :=
      chooseBestQ_congr _ _ _ (fun r hr => hscoreaug r (List.mem_of_mem_filter hr))
    rw [hsc, chooseBestQ_natCast]
    cases hcb : chooseBest (df.rows.filter (fun r => cellAt r kIdx == k)) with
    | none => rfl
    | some b =>
      have hbmem : b ∈ df.rows := by
        have hb' : chooseBestQ (fun r => (rowScore r : ℚ))
            (df.rows.filter (fun r => cellAt r kIdx == k)) = some b := by
          rw [chooseBestQ_natCast, hcb]
        exact List.mem_of_mem_filter (chooseBestQ_mem _ _ b hb')
      simp only [Option.map_some']
      rw [heraseaug b hbmem]

/-- **C3 witness.** The dedup guarantees at the concrete three-row table. -/
theorem remove_duplicates_spec_witness :
    (remove_duplicates witDedupTable "NCT Number").cols = witDedupTable.cols ∧
    nRows (remove_duplicates witDedupTable "NCT Number") ≤ nRows witDedupTable ∧
    ((remove_duplicates witDedupTable "NCT Number").rows.map
      (fun r => cellAt r (witDedupTable.cols.indexOf "NCT Number"))).Nodup :=
  have h := remove_duplicates_spec witDedupTable "NCT Number"
    (by decide) (by decide) (by decide)
  ⟨h.1, h.2.1, h.2.2.1⟩

/-! ## C2 — idempotence of the text-cleaning pipeline -/

theorem wordsOf_wf (t : Text) :
    ∀ w ∈ wordsOf t, w ≠ [] ∧ ∀ c ∈ w, isSpaceChar c = false := by
  induction t using wordsOf.induct with
  | case1 =>
    intro w hw
    simp [wordsOf] at hw
  | case2 c cs hsp ih =>
    intro w hw
    rw [wordsOf, if_pos hsp] at hw
    exact ih w hw
  | case3 c cs hsp ih =>
    intro w hw
    rw [wordsOf, if_neg hsp] at hw
    rcases List.mem_cons.mp hw with rfl | hw'
    · refine ⟨List.cons_ne_nil _ _, ?_⟩
      intro d hd
      rcases List.mem_cons.mp hd with rfl | hd'
      · exact Bool.eq_false_iff.mpr hsp
      · have := List.mem_takeWhile_imp hd'
        simpa using this
    · exact ih w hw'

/-- Taking while a predicate holds on the whole left part. -/
theorem takeWhile_append_all {p : Char → Bool} (l1 l2 : Text)
    (h : ∀ c ∈ l1, p c = true) :
    (l1 ++ l2).takeWhile p = l1 ++ l2.takeWhile p := by
  induction l1 with
  | nil => rfl
  | cons c cs ih =>
    simp only [List.cons_append, List.takeWhile_cons]
    rw [h c (List.mem_cons_self c cs), ih (fun d hd => h d (List.mem_cons_of_mem c hd))]
    simp

/-- Dropping while a predicate holds on the whole left part. -/
theorem dropWhile_append_all {p : Char → Bool} (l1 l2 : Text)
    (h : ∀ c ∈ l1, p c = true) :
    (l1 ++ l2).dropWhile p = l2.dropWhile p := by
  induction l1 with
  | nil => rfl
  | cons c cs ih =>
    simp only [List.cons_append, List.dropWhile_cons]
    rw [h c (List.mem_cons_self c cs)]
    simp only [if_true]
    exact ih (fun d hd => h d (List.mem_cons_of_mem c hd))

/-- Splitting a single clean word. -/
theorem wordsOf_word_nil (w : Text) (hne : w ≠ [])
    (hns : ∀ c ∈ w, isSpaceChar c = false) : wordsOf w = [w] := by
  cases w with
  | nil => exact absurd rfl hne
  | cons c cs =>
    have hcs : isSpaceChar c = false := hns c (List.mem_cons_self c cs)
    rw [wordsOf, if_neg (by simp [hcs])]
    have ht : cs.takeWhile (fun d => ¬ isSpaceChar d) = cs := by
      rw [List.takeWhile_eq_self_iff.mpr]
      intro d hd
      simp [hns d (List.mem_cons_of_mem c hd)]
    have hd : cs.dropWhile (fun d => ¬ isSpaceChar d) = [] := by
      rw [List.dropWhile_eq_nil_iff.mpr]
      intro d hd
      simp [hns d (List.mem_cons_of_mem c hd)]
    rw [ht, hd]
    simp [wordsOf]

/-- Splitting a clean word followed by a space. -/
theorem wordsOf_word_space (w rest : Text) (hne : w ≠ [])
    (hns : ∀ c ∈ w, isSpaceChar c = false) :
    wordsOf (w ++ ' ' :: rest) = w :: wordsOf rest := by
  cases w with
  | nil => exact absurd rfl hne
  | cons c cs =>
    have hcs : isSpaceChar c = false := hns c (List.mem_cons_self c cs)
    rw [List.cons_append, wordsOf, if_neg (by simp [hcs])]
    have ht : (cs ++ ' ' :: rest).takeWhile (fun d => ¬ isSpaceChar d) = cs := by
      rw [takeWhile_append_all cs (' ' :: rest)
        (fun d hd => by simp [hns d (List.mem_cons_of_mem c hd)])]
      rw [List.takeWhile_cons_of_neg (by simp [isSpaceChar])]
      simp
    have hd : (cs ++ ' ' :: rest).dropWhile (fun d => ¬ isSpaceChar d) = ' ' :: rest := by
      rw [dropWhile_append_all cs (' ' :: rest)
        (fun d hd => by simp [hns d (List.mem_cons_of_mem c hd)])]
      rw [List.dropWhile_cons_of_neg (by simp [isSpaceChar])]
    rw [ht, hd]
    have : wordsOf (' ' :: rest) = wordsOf rest := by
      rw [wordsOf, if_pos (by simp [isSpaceChar])]
    rw [this]

/-- Splitting inverts joining of clean words. -/
theorem wordsOf_joinWords (ws : List Text)
    (h : ∀ w ∈ ws, w ≠ [] ∧ ∀ c ∈ w, isSpaceChar c = false) :
    wordsOf (joinWords ws) = ws := by
  induction ws with
  | nil => simp [joinWords, wordsOf]
  | cons w ws ih =>
    obtain ⟨hne, hns⟩ := h w (List.mem_cons_self w ws)
    cases ws with
    | nil => exact wordsOf_word_nil w hne hns
    | cons w2 ws2 =>
      show wordsOf (w ++ ' ' :: joinWords (w2 :: ws2)) = _
      rw [wordsOf_word_space w _ hne hns,
        ih (fun x hx => h x (List.mem_cons_of_mem w hx))]

/-- Characters of the split words come from the text. -/
theorem wordsOf_chars (t : Text) :
    ∀ w ∈ wordsOf t, ∀ c ∈ w, c ∈ t := by
  induction t using wordsOf.induct with
  | case1 =>
    intro w hw
    simp [wordsOf] at hw
  | case2 c cs hsp ih =>
    intro w hw d hd
    rw [wordsOf, if_pos hsp] at hw
    exact List.mem_cons_of_mem c (ih w hw d hd)
  | case3 c cs hsp ih =>
    intro w hw d hd
    rw [wordsOf, if_neg hsp] at hw
    rcases List.mem_cons.mp hw with rfl | hw'
    · rcases List.mem_cons.mp hd with rfl | hd'
      · exact List.mem_cons_self _ _
      · exact List.mem_cons_of_mem c ((List.takeWhile_sublist _).mem hd')
    · exact List.mem_cons_of_mem c
        ((List.dropWhile_sublist _).mem (ih w hw' d hd))

/-- Characters of a join are separators or word characters. -/
theorem joinWords_chars (ws : List Text) :
    ∀ c ∈ joinWords ws, c = ' ' ∨ ∃ w ∈ ws, c ∈ w := by
  induction ws with
  | nil =>
    intro c hc
    cases hc
  | cons w ws ih =>
    intro c hc
    cases ws with
    | nil =>
      right
      exact ⟨w, List.mem_cons_self _ _, hc⟩
    | cons w2 ws2 =>
      rcases List.mem_append.mp hc with hcw | hcr
      · exact Or.inr ⟨w, List.mem_cons_self _ _, hcw⟩
      · rcases List.mem_cons.mp hcr with rfl | hcr'
        · exact Or.inl rfl
        · rcases ih c hcr' with h | ⟨w', hw', hcw'⟩
          · exact Or.inl h
          · exact Or.inr ⟨w', List.mem_cons_of_mem w hw', hcw'⟩

/-- The duplicate filter keeps only original words. -/
theorem dedupAdjGo_subset (last : Text) (ws : List Text) :
    ∀ w ∈ dedupAdjGo last ws, w ∈ ws := by
  induction ws generalizing last with
  | nil => intro w hw; cases hw
  | cons v vs ih =>
    intro w hw
    unfold dedupAdjGo at hw
    split_ifs at hw
    · exact List.mem_cons_of_mem v (ih last w hw)
    · rcases List.mem_cons.mp hw with rfl | hw'
      · exact List.mem_cons_self _ _
      · exact List.mem_cons_of_mem v (ih v w hw')

/-- Characters of a substitution output come from the text or the
replacement. -/
theorem subPat_chars (p : Pat) (rep : Text) :
    ∀ (t : Text) (prev : Option Char), ∀ c ∈ subPat p rep prev t, c ∈ t ∨ c ∈ rep := by
  suffices h : ∀ (n : Nat) (t : Text), t.length = n →
      ∀ (prev : Option Char), ∀ c ∈ subPat p rep prev t, c ∈ t ∨ c ∈ rep by
    intro t
    exact h t.length t rfl
  intro n
  induction n using Nat.strong_induction_on with
  | _ n ih =>
    intro t ht prev c hc
    cases t with
    | nil =>
      rw [subPat] at hc
      cases hc
    | cons a cs =>
      rw [subPat] at hc
      split at hc
      next k hk =>
        split_ifs at hc with hb
        · rcases List.mem_append.mp hc with hcr | hcs
          · exact Or.inr hcr
          · have hlen : (cs.drop k).length < n := by
              subst ht
              simp only [List.length_drop, List.length_cons]
              omega
            rcases ih _ hlen (cs.drop k) rfl _ c hcs with h | h
            · exact Or.inl (List.mem_cons_of_mem a (List.mem_of_mem_drop h))
            · exact Or.inr h
        · rcases List.mem_cons.mp hc with rfl | hcs
          · exact Or.inl (List.mem_cons_self _ _)
          · have hlen : cs.length < n := by
              subst ht
              simp
            rcases ih _ hlen cs rfl _ c hcs with h | h
            · exact Or.inl (List.mem_cons_of_mem a h)
            · exact Or.inr h
      next =>
        rcases List.mem_cons.mp hc with rfl | hcs
        · exact Or.inl (List.mem_cons_self _ _)
        · have hlen : cs.length < n := by
            subst ht
            simp
          rcases ih _ hlen cs rfl _ c hcs with h | h
          · exact Or.inl (List.mem_cons_of_mem a h)
          · exact Or.inr h

/-- Terminology substitution introduces no stripped characters. -/
theorem norm_noBad (t : Text) (h : ∀ c ∈ t, isBadChar c = false) :
    ∀ c ∈ normalize_medical_terminology t, isBadChar c = false := by
  have hreps : ∀ pr ∈ terminologyMap, ∀ c ∈ pr.2, isBadChar c = false := by decide
  unfold normalize_medical_terminology
  generalize hl : terminologyMap = l at hreps
  clear hl
  induction l generalizing t with
  | nil => exact h
  | cons pr prs ih =>
    simp only [List.foldl_cons]
    refine ih (subPat pr.1 pr.2 none t) ?_ ?_
    · intro c hc
      rcases subPat_chars pr.1 pr.2 t none c hc with hin | hin
      · exact h c hin
      · exact hreps pr (List.mem_cons_self _ _) c hin
    · intro q hq
      exact hreps q (List.mem_cons_of_mem pr hq)

/-- Characters after duplicate-word removal come from the text or are
spaces. -/
theorem dup_chars (t : Text) :
    ∀ c ∈ remove_duplicate_words t, c ∈ t ∨ c = ' ' := by
  intro c hc
  cases hwt : wordsOf t with
  | nil =>
    simp only [remove_duplicate_words, hwt] at hc
    exact Or.inl hc
  | cons w ws =>
    cases ws with
    | nil =>
      simp only [remove_duplicate_words, hwt] at hc
      exact Or.inl hc
    | cons w2 ws2 =>
      simp only [remove_duplicate_words, hwt] at hc
      rcases joinWords_chars _ c hc with h | ⟨w', hw', hcw'⟩
      · exact Or.inr h
      · rcases List.mem_cons.mp hw' with rfl | hw''
        · exact Or.inl (wordsOf_chars t w' (hwt ▸ List.mem_cons_self _ _) c hcw')
        · have hmem : w' ∈ wordsOf t := by
            rw [hwt]
            exact List.mem_cons_of_mem w (dedupAdjGo_subset w (w2 :: ws2) w' hw'')
          exact Or.inl (wordsOf_chars t w' hmem c hcw')

/-- Characters after whitespace collapse come from the text or are
spaces. -/
theorem cw_output_chars (t : Text) :
    ∀ c ∈ joinWords (wordsOf t), c ∈ t ∨ c = ' ' := by
  intro c hc
  rcases joinWords_chars _ c hc with h | ⟨w, hw, hcw⟩
  · exact Or.inr h
  · exact Or.inl (wordsOf_chars t w hw c hcw)

/-- Stripping invalid characters fixes a clean text. -/
theorem inval_fixed (t : Text) (h : ∀ c ∈ t, isBadChar c = false) :
    remove_invalid_characters t = t := by
  unfold remove_invalid_characters
  rw [List.filter_eq_self]
  intro c hc
  simp [h c hc]

/-- Whitespace collapse fixes a normalised join of clean words. -/
theorem cw_fixed (s : Text) (ws : List Text) (hws : ws ≠ [])
    (hwf : ∀ w ∈ ws, w ≠ [] ∧ ∀ c ∈ w, isSpaceChar c = false)
    (hs : s = joinWords ws) :
    clean_whitespace (some s) = some s := by
  have hred : clean_whitespace (some s) =
      if (wordsOf s).isEmpty then none else some (joinWords (wordsOf s)) := rfl
  rw [hred, hs, wordsOf_joinWords ws hwf, if_neg (by simpa using hws)]

/-- The duplicate filter fixes a list without adjacent duplicates. -/
theorem dedupAdjGo_fixed (last : Text) (ws : List Text)
    (h : List.Chain' (fun a b => lowerText a ≠ lowerText b) (last :: ws)) :
    dedupAdjGo last ws = ws := by
  induction ws generalizing last with
  | nil => rfl
  | cons v vs ih =>
    rcases List.chain'_cons.mp h with ⟨hne, h'⟩
    unfold dedupAdjGo
    rw [if_neg (fun he => hne he.symm)]
    rw [ih v h']

/-- The duplicate filter output has no adjacent duplicates. -/
theorem dedupAdjGo_chain (ws : List Text) :
    ∀ last, List.Chain' (fun a b => lowerText a ≠ lowerText b)
      (last :: dedupAdjGo last ws) := by
  induction ws with
  | nil => intro last; simp [dedupAdjGo]
  | cons v vs ih =>
    intro last
    unfold dedupAdjGo
    split_ifs with he
    · exact ih last
    · exact List.chain'_cons.mpr ⟨fun hc => he hc.symm, ih v⟩

/-- Words after duplicate-word removal have no adjacent duplicates. -/
theorem dup_output_chain (u : Text) :
    List.Chain' (fun a b => lowerText a ≠ lowerText b)
      (wordsOf (remove_duplicate_words u)) := by
  cases hwu : wordsOf u with
  | nil =>
    simp only [remove_duplicate_words, hwu]
    simp
  | cons w ws =>
    cases ws with
    | nil =>
      simp only [remove_duplicate_words, hwu]
      simp
    | cons w2 ws2 =>
      simp only [remove_duplicate_words, hwu]
      have hwf := wordsOf_wf u
      have hwfl : ∀ x ∈ w :: dedupAdjGo w (w2 :: ws2),
          x ≠ [] ∧ ∀ c ∈ x, isSpaceChar c = false := by
        intro x hx
        rcases List.mem_cons.mp hx with rfl | hx'
        · exact hwf x (hwu ▸ List.mem_cons_self _ _)
        · have hx2 : x ∈ w2 :: ws2 := dedupAdjGo_subset w (w2 :: ws2) x hx'
          exact hwf x (hwu ▸ List.mem_cons_of_mem w hx2)
      rw [wordsOf_joinWords _ hwfl]
      exact dedupAdjGo_chain (w2 :: ws2) w

/-- **C2 (amended).** The full cleaning pipeline is idempotent on every
input whose cleaned output is a fixed point of both HTML-entity decoding
and terminology substitution (whitespace collapse, control-character
stripping and duplicate-word collapse are unconditionally stable on
cleaned output); the counterexample shows the unrestricted claim fails. -/
theorem text_cleaning_idempotent_conditional (o : OText)
    (h : ∀ s : Text, apply_all_text_cleaning o = some s →
      remove_html_entities s = s ∧ normalize_medical_terminology s = s) :
    apply_all_text_cleaning (apply_all_text_cleaning o) =
      apply_all_text_cleaning o := by
  cases o with
  | none => rfl
  | some t =>
    cases hy : apply_all_text_cleaning (some t) with
    | none => rfl
    | some s =>
      obtain ⟨hE, hN⟩ := h s hy
      have happ : apply_all_text_cleaning (some t) =
          clean_whitespace (((((clean_whitespace (some t)).map
            remove_html_entities).map remove_invalid_characters).map
            normalize_medical_terminology).map remove_duplicate_words) := rfl
      rw [happ] at hy
      cases hcw : clean_whitespace (some t) with
      | none =>
        rw [hcw] at hy
        simp only [Option.map_none'] at hy
        cases hy
      | some t1 =>
        rw [hcw] at hy
        simp only [Option.map_some'] at hy
        set t5 := remove_duplicate_words (normalize_medical_terminology
          (remove_invalid_characters (remove_html_entities t1))) with ht5
        have hred : clean_whitespace (some t5) =
            if (wordsOf t5).isEmpty then none
            else some (joinWords (wordsOf t5)) := rfl
        rw [hred] at hy
        by_cases hemp : (wordsOf t5).isEmpty
        · rw [if_pos hemp] at hy
          cases hy
        · rw [if_neg hemp] at hy
          have hs : s = joinWords (wordsOf t5) := (Option.some.inj hy).symm
          have hwf5 := wordsOf_wf t5
          have hwne : wordsOf t5 ≠ [] := by simpa using hemp
          have hws_s : wordsOf s = wordsOf t5 := by
            rw [hs]
            exact wordsOf_joinWords _ hwf5
          have hcwS : clean_whitespace (some s) = some s :=
            cw_fixed s (wordsOf t5) hwne hwf5 hs
          have hnb3 : ∀ c ∈ remove_invalid_characters (remove_html_entities t1),
              isBadChar c = false := by
            intro c hc
            unfold remove_invalid_characters at hc
            have hp := List.of_mem_filter hc
            simpa using hp
          have hnb4 : ∀ c ∈ normalize_medical_terminology
              (remove_invalid_characters (remove_html_entities t1)),
              isBadChar c = false := norm_noBad _ hnb3
          have hnb5 : ∀ c ∈ t5, isBadChar c = false := by
            intro c hc
            rcases dup_chars _ c (ht5 ▸ hc) with h' | rfl
            · exact hnb4 c h'
            · decide
          have hnbS : ∀ c ∈ s, isBadChar c = false := by
            intro c hc
            rw [hs] at hc
            rcases cw_output_chars t5 c hc with h' | rfl
            · exact hnb5 c h'
            · decide
          have hIV : remove_invalid_characters s = s := inval_fixed s hnbS
          have hchain : List.Chain' (fun a b => lowerText a ≠ lowerText b)
              (wordsOf s) := by
            rw [hws_s, ht5]
            exact dup_output_chain _
          have hdup : remove_duplicate_words s = s := by
            cases hws : wordsOf s with
            | nil => simp only [remove_duplicate_words, hws]
            | cons w ws' =>
              cases ws' with
              | nil => simp only [remove_duplicate_words, hws]
              | cons w2 ws2 =>
                simp only [remove_duplicate_words, hws]
                rw [dedupAdjGo_fixed w (w2 :: ws2) (hws ▸ hchain)]
                calc joinWords (w :: w2 :: ws2) = joinWords (wordsOf s) := by rw [hws]
                  _ = joinWords (wordsOf t5) := by rw [hws_s]
                  _ = s := hs.symm
          show apply_all_text_cleaning (some s) = some s
          have happ2 : apply_all_text_cleaning (some s) =
              clean_whitespace (((((clean_whitespace (some s)).map
                remove_html_entities).map remove_invalid_characters).map
                normalize_medical_terminology).map remove_duplicate_words) := rfl
          rw [happ2, hcwS]
          simp only [Option.map_some']
          rw [hE, hIV, hN, hdup, hcwS]

set_option maxHeartbeats 4000000 in
set_option maxRecDepth 8000 in
/-- **C2 counterexample.** The double-encoded entity `&amp;amp;` cleans to
`&amp;`, which a second pass decodes further to `&`: the pipeline is not
idempotent as claimed. -/
theorem text_cleaning_not_idempotent :
    apply_all_text_cleaning (apply_all_text_cleaning cexIdemInput) ≠
      apply_all_text_cleaning cexIdemInput := by
  have h1 : apply_all_text_cleaning cexIdemInput = some "&amp;".data := by
    simp [cexIdemInput, apply_all_text_cleaning, clean_whitespace, wordsOf, isSpaceChar,
      joinWords, remove_html_entities, htmlEntities, replacePair, replAll,
      remove_invalid_characters, isBadChar, normalize_medical_terminology,
      terminologyMap, subPat, matchPat, matchToks, litToks, endBoundaryOK,
      prevBoundaryOK, isWordChar, remove_duplicate_words, dedupAdjGo, lowerText,
      List.isPrefixOf]
  have h2 : apply_all_text_cleaning (some "&amp;".data) = some "&".data := by
    simp [apply_all_text_cleaning, clean_whitespace, wordsOf, isSpaceChar,
      joinWords, remove_html_entities, htmlEntities, replacePair, replAll,
      remove_invalid_characters, isBadChar, normalize_medical_terminology,
      terminologyMap, subPat, matchPat, matchToks, litToks, endBoundaryOK,
      prevBoundaryOK, isWordChar, remove_duplicate_words, dedupAdjGo, lowerText,
      List.isPrefixOf]
  rw [h1, h2]
  intro hc
  have := Option.some.inj hc
  simp at this

set_option maxHeartbeats 4000000 in
set_option maxRecDepth 8000 in
/-- **C2 witness.** `"hello world"` satisfies both fixed-point hypotheses,
and the amended idempotence theorem applies to it. -/
theorem text_cleaning_idempotent_witness :
    (∀ s : Text, apply_all_text_cleaning witIdemInput = some s →
      remove_html_entities s = s ∧ normalize_medical_terminology s = s) ∧
    apply_all_text_cleaning (apply_all_text_cleaning witIdemInput) =
      apply_all_text_cleaning witIdemInput := by
  have hval : apply_all_text_cleaning witIdemInput = some "hello world".data := by
    simp [witIdemInput, apply_all_text_cleaning, clean_whitespace, wordsOf, isSpaceChar,
      joinWords, remove_html_entities, htmlEntities, replacePair, replAll,
      remove_invalid_characters, isBadChar, normalize_medical_terminology,
      terminologyMap, subPat, matchPat, matchToks, litToks, endBoundaryOK,
      prevBoundaryOK, isWordChar, remove_duplicate_words, dedupAdjGo, lowerText,
      List.isPrefixOf]
  have hE : remove_html_entities "hello world".data = "hello world".data := by
    simp [remove_html_entities, htmlEntities, replacePair, replAll, List.isPrefixOf]
  have hN : normalize_medical_terminology "hello world".data = "hello world".data := by
    simp [normalize_medical_terminology, terminologyMap, subPat, matchPat, matchToks,
      litToks, endBoundaryOK, prevBoundaryOK, isWordChar, isSpaceChar]
  have hhyp : ∀ s : Text, apply_all_text_cleaning witIdemInput = some s →
      remove_html_entities s = s ∧ normalize_medical_terminology s = s := by
    intro s hs
    rw [hval] at hs
    cases hs
    exact ⟨hE, hN⟩
  exact ⟨hhyp, text_cleaning_idempotent_conditional witIdemInput hhyp⟩

end TrailLink
